import Mathlib

/-!
# Verification of the juju dependency-engine specification

This file formalises, in a shallow embedding, the parts of the repository
needed to settle the frozen claims:

* The dependency-driven worker supervision engine (`Manifold`, `Node`,
  `Engine`, the resolution-loop step relation).  The engine's own source
  file is not part of the sample (only a caller, `ApiManifold`, is), so
  the engine model is built from the specification's own words (spec.md
  sections 3, 4, 5 and 7); every such definition is marked
  `Modelled from the spec:` in its doc comment.
* `ApiManifold` (worker/util engine glue, in the sample).
* `precheckShim.AgentVersion` (migration precheck shim, in the sample).
* `Bootstrap` (environs/bootstrap/bootstrap.go, in the sample).
* `formatFilesystemListTabular` (cmd/juju/storage, in the sample).
-/

namespace Juju

/-- A type-erased published output value.  The engine stores outputs
type-erased; `tag` stands for the dynamic (reflected) type and `data`
for the payload.  Tag `0` is reserved for "the worker instance itself",
used when a manifold declares no output function. -/
structure Value where
  tag : Nat
  data : Nat
deriving DecidableEq, Repr

/-- Errors visible at the engine boundary.  `missing` is `ErrMissing`,
`typeMismatch` is `ErrTypeMismatch`; every other error is abstracted as
a numeric code. -/
inductive EngErr
  | missing
  | typeMismatch
  | other (code : Nat)
deriving DecidableEq, Repr

/-- Classification of a worker's completion error by a manifold's
`filter` (spec section 3): fatal-to-engine, ignorable, or ordinary
(triggers backoff-and-retry). -/
inductive ErrClass
  | fatal
  | ignorable
  | ordinary
deriving DecidableEq, Repr

/-- Modelled from the spec: a `Manifold` (spec section 3) — immutable
descriptor of one graph node: unique `name`, the `inputs` it depends
on, whether it declares an `output` extraction function (`hasOutput`),
its declared output equality `eqOut` (defaulting, for manifolds without
an output function, to identity of the underlying worker — represented
here by worker-identity values with tag 0), and the completion-error
classifier `filter`. -/
structure Manifold where
  name : String
  inputs : List String
  hasOutput : Bool
  eqOut : Value → Value → Bool
  filter : EngErr → ErrClass

/-- Modelled from the spec: per-node lifecycle states (spec section 3);
`uninstalled` is represented by absence from the engine's node table. -/
inductive NodeState
  | stopped
  | started
  | stopping
  | errorSt
deriving DecidableEq, Repr

/-- Modelled from the spec: a `Node` (spec section 3) — the engine's
mutable bookkeeping record for one installed manifold. -/
structure Node where
  manifold : Manifold
  state : NodeState
  outputCache : Option Value
  lastError : Option EngErr
  retryAt : Nat

/-- Modelled from the spec: the engine-wide phase.  `running` is normal
operation; `stoppingAll f` is the engine stopping every node (with the
fatal error to be returned, if any); `done r` is terminated, `Wait()`
returning `r` (spec sections 4.2 and 7). -/
inductive Phase
  | running
  | stoppingAll (fatal : Option EngErr)
  | done (res : Option EngErr)
deriving DecidableEq, Repr

/-- Modelled from the spec: the `Engine` (spec section 3) — the node
table keyed by manifold name, the set of currently live worker
instances (node name, worker id), a fresh-worker-id counter, the
current time (for `retryAt` backoff bookkeeping) and the engine-wide
phase. -/
structure Engine where
  nodes : List (String × Node)
  liveWorkers : List (String × Nat)
  nextW : Nat
  now : Nat
  phase : Phase

/-- The empty engine, as constructed at startup. -/
def Engine.init : Engine :=
  { nodes := [], liveWorkers := [], nextW := 0, now := 0, phase := .running }

/-- Whether a name is currently installed. -/
def Engine.installed (g : Engine) (n : String) : Bool :=
  g.nodes.any (fun p => decide (p.1 = n))

/-- A fresh node for a just-installed manifold: state `stopped`, no
output, no error. -/
def Manifold.newNode (m : Manifold) : Node :=
  { manifold := m, state := .stopped, outputCache := none,
    lastError := none, retryAt := 0 }

/-- Modelled from the spec: `Install(manifold)` (spec section 4.2).
Fails with a configuration error when the name is already installed.
Declared inputs are *not* required to be installed yet: per the spec,
"it does not require the full graph to already exist — inputs may be
installed later, in which case the dependent simply never becomes
startable until then" (consistently with section 9, which records that
cyclic declarations are accepted and merely never start). -/
def Engine.install (g : Engine) (m : Manifold) : Except EngErr Engine :=
  if g.installed m.name then .error (.other 0)
  else .ok { g with nodes := g.nodes ++ [(m.name, m.newNode)] }

/-- Whether the node named `a` is currently in state `started`. -/
def isStarted (ns : List (String × Node)) (a : String) : Bool :=
  ns.any (fun p => decide (p.1 = a) && decide (p.2.state = .started))

/-- Whether every name in `ins` is currently `started`. -/
def allInputsStarted (ns : List (String × Node)) (ins : List String) : Bool :=
  ins.all (isStarted ns)

/-- One entry of the pruning pass: a `started` node one of whose inputs
is not `started` is sent the cancellation signal, i.e. demoted to
`stopping`. -/
def demoteIfOrphan (ns : List (String × Node)) (p : String × Node) :
    String × Node :=
  if p.2.state = .started && ! allInputsStarted ns p.2.manifold.inputs
  then (p.1, { p.2 with state := .stopping }) else p

/-- One simultaneous pruning pass over the node table. -/
def prune (ns : List (String × Node)) : List (String × Node) :=
  ns.map (demoteIfOrphan ns)

/-- Modelled from the spec: the cascading part of the resolution loop
(spec sections 4.2 and 5).  Whenever an event takes a node out of
`started`, the serialized decision loop sends the cancellation signal
to every (transitively) dependent node before any other observation is
possible: "a dependent is never observed in `started` state with a
dependency that has already moved past `started`".  Iterating the
pruning pass once per node reaches a fixed point. -/
def stabilize (ns : List (String × Node)) : List (String × Node) :=
  prune^[ns.length] ns

/-- Pointwise update of the node named `n`. -/
def setNode (ns : List (String × Node)) (n : String) (f : Node → Node) :
    List (String × Node) :=
  ns.map (fun p => if p.1 = n then (p.1, f p.2) else p)

/-- Remove the live worker (if any) of node `n`. -/
def removeWorker (lw : List (String × Nat)) (n : String) : List (String × Nat) :=
  lw.filter (fun q => decide (q.1 ≠ n))

/-- Send the cancellation signal to every started node (engine-wide
stop, spec section 4.2). -/
def demoteAllStarted (ns : List (String × Node)) : List (String × Node) :=
  ns.map (fun p =>
    if p.2.state = .started then (p.1, { p.2 with state := .stopping }) else p)

/-- Modelled from the spec: successful start of node `n` (spec section
4.1).  The worker produced by `start` commits the node to `started`;
its published output is the value `out` produced by the manifold's
`output` function, or — when no output function is declared — the
worker instance itself (tag 0, identity of the underlying worker). -/
def doStart (g : Engine) (n : String) (out : Value) : Engine :=
  { g with
    nodes := setNode g.nodes n (fun nd =>
      { nd with state := .started,
                outputCache := some
                  (if nd.manifold.hasOutput then out else ⟨0, g.nextW⟩) }),
    liveWorkers := (n, g.nextW) :: g.liveWorkers,
    nextW := g.nextW + 1 }

/-- Modelled from the spec: a failed start attempt — the node enters
`error` with a bounded retry delay (spec section 4.2, backoff policy;
a fixed interval is acceptable). -/
def doStartFail (g : Engine) (n : String) (e : EngErr) : Engine :=
  { g with
    nodes := setNode g.nodes n (fun nd =>
      { nd with state := .errorSt, lastError := some e, retryAt := g.now + 1 }) }

/-- Modelled from the spec: completion of node `n`'s worker where the
node simply becomes `stopped` (a deliberate stop completing, or a
completion whose error is nil or `filter`-classified ignorable).  Any
error is retained as `lastError` (spec section 7: no error is silently
dropped), the worker is removed, and the cascade re-stabilises. -/
def doStopComplete (g : Engine) (n : String) (e : Option EngErr) : Engine :=
  { g with
    nodes := stabilize (setNode g.nodes n (fun nd =>
      { nd with state := .stopped,
                lastError := match e with
                  | some err => some err
                  | none => nd.lastError })),
    liveWorkers := removeWorker g.liveWorkers n }

/-- Modelled from the spec: completion of node `n`'s worker with an
ordinary (non-fatal, non-ignorable) error: `started -> error`, with
`retryAt` set to now plus a bounded delay (spec section 4.2). -/
def doDoneErr (g : Engine) (n : String) (e : EngErr) : Engine :=
  { g with
    nodes := stabilize (setNode g.nodes n (fun nd =>
      { nd with state := .errorSt, lastError := some e, retryAt := g.now + 1 })),
    liveWorkers := removeWorker g.liveWorkers n }

/-- Modelled from the spec: completion of node `n`'s worker with a
`filter`-classified fatal error: the engine transitions to stopping
all nodes and will terminate with that error (spec sections 4.2, 7). -/
def doDoneFatal (g : Engine) (n : String) (e : EngErr) : Engine :=
  { g with
    nodes := demoteAllStarted (setNode g.nodes n (fun nd =>
      { nd with state := .stopped, lastError := some e })),
    liveWorkers := removeWorker g.liveWorkers n,
    phase := .stoppingAll (some e) }

/-- Modelled from the spec: completion of a stopping node's worker
while the engine is itself stopping; the first fatal error encountered
during shutdown is recorded (spec section 4.2: the engine "returns the
first fatal error encountered (if any) or nil"). -/
def doShutdownDone (g : Engine) (n : String) (nd : Node) (e : Option EngErr) :
    Engine :=
  { g with
    nodes := setNode g.nodes n (fun m =>
      { m with state := .stopped,
               lastError := match e with
                 | some err => some err
                 | none => m.lastError }),
    liveWorkers := removeWorker g.liveWorkers n,
    phase := match g.phase with
      | .stoppingAll (some x) => .stoppingAll (some x)
      | .stoppingAll none =>
        match e with
        | some err =>
          if nd.manifold.filter err = .fatal then .stoppingAll (some err)
          else .stoppingAll none
        | none => .stoppingAll none
      | ph => ph }

/-- Send the cancellation signal to the direct dependents of `n`
(every started node other than `n` that lists `n` among its inputs). -/
def demoteDependentsOf (ns : List (String × Node)) (n : String) :
    List (String × Node) :=
  ns.map (fun p =>
    if p.2.state = .started && decide (n ∈ p.2.manifold.inputs)
        && decide (p.1 ≠ n)
    then (p.1, { p.2 with state := .stopping }) else p)

/-- Modelled from the spec: reaction to a re-evaluation of a started
node's output (spec section 4.2).  If the new value is equal to the
previous one under the node's declared equality, nothing happens (no
dependent is bounced).  Otherwise the new output is published and
every transitive dependent is bounced: sent the cancellation signal
and made eligible for starting again. -/
def doOutputChange (g : Engine) (n : String) (v : Value) (nd : Node) : Engine :=
  match nd.outputCache with
  | none => g
  | some old =>
    if nd.manifold.eqOut old v then g
    else
      { g with
        nodes := stabilize (demoteDependentsOf
          (setNode g.nodes n (fun m => { m with outputCache := some v })) n) }

/-- Modelled from the spec: the engine decides one node must stop
(e.g. ahead of an uninstall): cancellation signal sent, dependents
cascade (spec section 4.2). -/
def doStopNode (g : Engine) (n : String) : Engine :=
  { g with
    nodes := stabilize (setNode g.nodes n (fun nd =>
      { nd with state := .stopping })) }

/-- Modelled from the spec: removal of a fully stopped node from the
graph (spec section 4.2, uninstall: the node is stopped first, then
removed; its dependents observe `ErrMissing` afterwards). -/
def doUninstall (g : Engine) (n : String) : Engine :=
  { g with nodes := stabilize (g.nodes.filter (fun p => decide (p.1 ≠ n))) }

/-- Modelled from the spec: an external request to stop the whole
engine: every node receives the cancellation signal (spec section 4.2,
engine shutdown). -/
def doRequestStop (g : Engine) : Engine :=
  { g with nodes := demoteAllStarted g.nodes, phase := .stoppingAll none }

/-- Modelled from the spec: once every worker has terminated, the
stopping engine terminates; `Wait()` returns the recorded fatal error
(if any) or nil. -/
def doFinishStop (g : Engine) : Engine :=
  { g with phase := match g.phase with
                    | .stoppingAll f => .done f
                    | ph => ph }

/-- Time passes (drives `retryAt` eligibility). -/
def doTick (g : Engine) : Engine :=
  { g with now := g.now + 1 }

/-- Labels for the engine's atomic events. -/
inductive Act
  | install (m : Manifold)
  | startOk (n : String) (out : Value)
  | startFail (n : String) (e : EngErr)
  | stopComplete (n : String) (e : Option EngErr)
  | workerStopped (n : String) (e : Option EngErr)
  | workerErred (n : String) (e : EngErr)
  | workerFatal (n : String) (e : EngErr)
  | shutdownDone (n : String) (e : Option EngErr)
  | outputChanged (n : String) (v : Value)
  | stopNode (n : String)
  | uninstall (n : String)
  | requestStop
  | finishStop
  | tick

/-- Modelled from the spec: the engine's serialized resolution loop as
a small-step transition relation (spec sections 4.2 and 5).  Each
constructor is one atomic decision of the loop; guards encode the
spec's preconditions (a node starts only when every declared input is
`started`; restart after an error only once `retryAt` has elapsed; at
most one worker per node because starts happen only from worker-free
states). -/
inductive Step : Engine → Act → Engine → Prop
  | install {g : Engine} {m : Manifold} {g' : Engine} :
      g.phase = .running → g.install m = .ok g' →
      Step g (.install m) g'
  | startOk {g : Engine} {n : String} {nd : Node} {out : Value} :
      g.phase = .running → (n, nd) ∈ g.nodes →
      (nd.state = .stopped ∨ (nd.state = .errorSt ∧ nd.retryAt ≤ g.now)) →
      allInputsStarted g.nodes nd.manifold.inputs = true →
      Step g (.startOk n out) (doStart g n out)
  | startFail {g : Engine} {n : String} {nd : Node} {e : EngErr} :
      g.phase = .running → (n, nd) ∈ g.nodes →
      (nd.state = .stopped ∨ (nd.state = .errorSt ∧ nd.retryAt ≤ g.now)) →
      allInputsStarted g.nodes nd.manifold.inputs = true →
      Step g (.startFail n e) (doStartFail g n e)
  | stopComplete {g : Engine} {n : String} {nd : Node} {e : Option EngErr} :
      g.phase = .running → (n, nd) ∈ g.nodes → nd.state = .stopping →
      Step g (.stopComplete n e) (doStopComplete g n e)
  | workerStopped {g : Engine} {n : String} {nd : Node} {e : Option EngErr} :
      g.phase = .running → (n, nd) ∈ g.nodes → nd.state = .started →
      (∀ err, e = some err → nd.manifold.filter err = .ignorable) →
      Step g (.workerStopped n e) (doStopComplete g n e)
  | workerErred {g : Engine} {n : String} {nd : Node} {e : EngErr} :
      g.phase = .running → (n, nd) ∈ g.nodes → nd.state = .started →
      nd.manifold.filter e = .ordinary →
      Step g (.workerErred n e) (doDoneErr g n e)
  | workerFatal {g : Engine} {n : String} {nd : Node} {e : EngErr} :
      g.phase = .running → (n, nd) ∈ g.nodes → nd.state = .started →
      nd.manifold.filter e = .fatal →
      Step g (.workerFatal n e) (doDoneFatal g n e)
  | shutdownDone {g : Engine} {n : String} {nd : Node} {f : Option EngErr}
      {e : Option EngErr} :
      g.phase = .stoppingAll f → (n, nd) ∈ g.nodes → nd.state = .stopping →
      Step g (.shutdownDone n e) (doShutdownDone g n nd e)
  | outputChanged {g : Engine} {n : String} {nd : Node} {v : Value} :
      g.phase = .running → (n, nd) ∈ g.nodes → nd.state = .started →
      nd.manifold.hasOutput = true →
      Step g (.outputChanged n v) (doOutputChange g n v nd)
  | stopNode {g : Engine} {n : String} {nd : Node} :
      g.phase = .running → (n, nd) ∈ g.nodes → nd.state = .started →
      Step g (.stopNode n) (doStopNode g n)
  | uninstall {g : Engine} {n : String} {nd : Node} :
      g.phase = .running → (n, nd) ∈ g.nodes →
      (nd.state = .stopped ∨ nd.state = .errorSt) →
      Step g (.uninstall n) (doUninstall g n)
  | requestStop {g : Engine} :
      g.phase = .running →
      Step g .requestStop (doRequestStop g)
  | finishStop {g : Engine} {f : Option EngErr} :
      g.phase = .stoppingAll f → g.liveWorkers = [] →
      Step g .finishStop (doFinishStop g)
  | tick {g : Engine} :
      Step g .tick (doTick g)

/-- The engine states reachable from the freshly constructed engine. -/
inductive Reachable : Engine → Prop
  | init : Reachable Engine.init
  | step {g : Engine} {a : Act} {g' : Engine} :
      Reachable g → Step g a g' → Reachable g'

/-- Relation `Demoted q p`: entry `q` is entry `p`, except that its state may
have been demoted from `started` to `stopping` by a cancellation
cascade. -/
def Demoted (q p : String × Node) : Prop :=
  q.1 = p.1 ∧ q.2.manifold = p.2.manifold ∧
  q.2.outputCache = p.2.outputCache ∧ q.2.lastError = p.2.lastError ∧
  q.2.retryAt = p.2.retryAt ∧
  (q.2.state = p.2.state ∨ (q.2.state = .stopping ∧ p.2.state = .started))

/-- Number of currently `started` nodes; the strictly decreasing
measure of the pruning pass. -/
def countStarted (ns : List (String × Node)) : Nat :=
  ns.countP (fun p => decide (p.2.state = .started))

/-- Modelled from the spec: the engine-wide invariants of spec
section 3, plus the bookkeeping facts needed to establish them
inductively.  `lwNodup` gives "at most one worker instance per node";
`inputsStarted` gives "a node is `started` only while all of its
inputs are `started`"; `startedOutput` gives "`outputCache` is valid
while `state == started`"; `phaseStarted`/`doneDrained` track the
engine-wide shutdown. -/
structure Inv (g : Engine) : Prop where
  keysNodup : (g.nodes.map Prod.fst).Nodup
  lwNodup : (g.liveWorkers.map Prod.fst).Nodup
  lwDom : ∀ q ∈ g.liveWorkers, ∃ p ∈ g.nodes, p.1 = q.1 ∧
    (p.2.state = .started ∨ p.2.state = .stopping)
  lwTotal : ∀ p ∈ g.nodes, (p.2.state = .started ∨ p.2.state = .stopping) →
    ∃ w, (p.1, w) ∈ g.liveWorkers
  inputsStarted : ∀ p ∈ g.nodes, p.2.state = .started →
    allInputsStarted g.nodes p.2.manifold.inputs = true
  startedOutput : ∀ p ∈ g.nodes, p.2.state = .started →
    p.2.outputCache.isSome = true
  phaseStarted : g.phase ≠ .running → ∀ p ∈ g.nodes, p.2.state ≠ .started
  doneDrained : ∀ r, g.phase = .done r → g.liveWorkers = []

/-! ### Observation functions over an engine -/

/-- The state of the node named `a`, or `none` when `a` is not
installed (`uninstalled`). -/
def stateOf (g : Engine) (a : String) : Option NodeState :=
  (g.nodes.find? (fun p => decide (p.1 = a))).map (fun p => p.2.state)

/-- The cached output of the node named `a`, if any. -/
def outputOf (g : Engine) (a : String) : Option Value :=
  (g.nodes.find? (fun p => decide (p.1 = a))).bind (fun p => p.2.outputCache)

/-- The declared inputs of the node named `a`, if installed. -/
def inputsOf (g : Engine) (a : String) : Option (List String) :=
  (g.nodes.find? (fun p => decide (p.1 = a))).map
    (fun p => p.2.manifold.inputs)

/-- The number of currently live worker instances of node `n`. -/
def workersFor (g : Engine) (n : String) : Nat :=
  (g.liveWorkers.filter (fun q => decide (q.1 = n))).length

/-- Modelled from the spec: the copy-on-write snapshot of published
outputs read by `Context.Get` (spec section 5): the outputs of
exactly the currently `started` nodes. -/
def snapshotOutputs (g : Engine) : List (String × Value) :=
  g.nodes.filterMap (fun p =>
    if p.2.state = .started then p.2.outputCache.map (fun v => (p.1, v))
    else none)

/-- Modelled from the spec: `Context.Get(name, &out)` (spec section
4.1): look the name up in the output snapshot; fail with `ErrMissing`
when the dependency is not currently `started`, with
`ErrTypeMismatch` when the stored output's dynamic type is
incompatible with the target `tag`, and copy the value otherwise. -/
def contextGet (g : Engine) (name : String) (tag : Nat) :
    Except EngErr Value :=
  match (snapshotOutputs g).find? (fun q => decide (q.1 = name)) with
  | none => .error .missing
  | some q => if q.2.tag = tag then .ok q.2 else .error .typeMismatch

/-- Relation `Depends ns a d`: node `d` (transitively) depends on node `a`
through the declared `inputs` of installed nodes. -/
inductive Depends (ns : List (String × Node)) : String → String → Prop
  | direct {a d : String} {nd : Node} :
      (d, nd) ∈ ns → a ∈ nd.manifold.inputs → Depends ns a d
  | trans {a m d : String} {nd : Node} :
      Depends ns a m → (d, nd) ∈ ns → m ∈ nd.manifold.inputs →
      Depends ns a d

/-- Whether a fallible computation succeeded. -/
def exceptOk {ε α : Type} : Except ε α → Bool
  | .ok _ => true
  | .error _ => false

/-- The node table right after an output change of `n` to `v` is
published and the direct dependents of `n` are sent the cancellation
signal (before the cascade is stabilised). -/
def bounceNodes (g : Engine) (n : String) (v : Value) :
    List (String × Node) :=
  demoteDependentsOf
    (setNode g.nodes n (fun m => { m with outputCache := some v })) n

/-! ### Concrete manifolds and engine runs (used as test vectors) -/

/-- A leaf manifold: no inputs, publishes an output, ordinary errors. -/
def mA : Manifold :=
  { name := "a", inputs := [], hasOutput := true,
    eqOut := fun x y => decide (x = y), filter := fun _ => .ordinary }

/-- A dependent manifold: one input `"a"`, no output function. -/
def mB : Manifold :=
  { name := "b", inputs := ["a"], hasOutput := false,
    eqOut := fun x y => decide (x = y), filter := fun _ => .ordinary }

/-- A leaf manifold whose `filter` classifies every error fatal. -/
def mF : Manifold :=
  { name := "f", inputs := [], hasOutput := true,
    eqOut := fun x y => decide (x = y), filter := fun _ => .fatal }

/-- The output initially published by `"a"` in the test run. -/
def vA : Value := ⟨1, 1⟩

/-- The engine after installing `mA`. -/
def e1 : Engine :=
  { Engine.init with nodes := Engine.init.nodes ++ [(mA.name, mA.newNode)] }

/-- Then, after starting `"a"` with output `vA`. -/
def e2 : Engine := doStart e1 "a" vA

/-- Then, after installing `mB`. -/
def e3 : Engine := { e2 with nodes := e2.nodes ++ [(mB.name, mB.newNode)] }

/-- Then, after starting `"b"`. -/
def e4 : Engine := doStart e3 "b" ⟨2, 2⟩

/-- The bookkeeping record of `"a"` while started in the test run. -/
def ndA : Node :=
  { manifold := mA, state := .started, outputCache := some vA,
    lastError := none, retryAt := 0 }

/-- The bookkeeping record of `"b"` while started in the test run
(no output function, so the published value is the worker identity). -/
def ndB : Node :=
  { manifold := mB, state := .started, outputCache := some ⟨0, 1⟩,
    lastError := none, retryAt := 0 }

/-- A separate run: the engine after installing `mF`. -/
def f1 : Engine :=
  { Engine.init with nodes := Engine.init.nodes ++ [(mF.name, mF.newNode)] }

/-- Then, after starting `"f"`. -/
def f2 : Engine := doStart f1 "f" vA

/-- Then, after `"f"`'s worker completes with error `.other 7`, which
`mF.filter` classifies fatal. -/
def f3 : Engine := doDoneFatal f2 "f" (.other 7)

/-! ### Models of the sampled source files outside the engine -/

/-- Model of `ApiManifoldConfig` (src/unnamed/part_002, `worker/util` engine
package): the name of the API-caller dependency. -/
structure ApiManifoldConfig where
  apiCallerName : String

/-- The shape of a `dependency.Manifold` value as built by
`ApiManifold`: the declared `Inputs` and the `Start` function, which
receives the context's `Get` accessor.  Workers are abstracted to
their identifier; an API caller value is a published `Value`. -/
structure DManifold where
  inputs : List String
  start : (String → Except EngErr Value) → Except EngErr Nat

/-- The `Start` closure built by `ApiManifold`: get the API caller
resource from the context; on failure return the `Get` error
unchanged, otherwise call the supplied start function with it. -/
def apiManifoldStart (config : ApiManifoldConfig)
    (start : Value → Except EngErr Nat)
    (ctxGet : String → Except EngErr Value) : Except EngErr Nat :=
  match ctxGet config.apiCallerName with
  | .error e => .error e
  | .ok apiCaller => start apiCaller

/-- Model of `ApiManifold` (src/unnamed/part_002, lines 149-162): returns a
manifold with the single input `config.APICallerName` whose `Start`
gets that resource from the context and, on success, calls the
supplied start function with it. -/
def apiManifold (config : ApiManifoldConfig)
    (start : Value → Except EngErr Nat) : DManifold :=
  { inputs := [config.apiCallerName],
    start := apiManifoldStart config start }

/-- A model config (environs/config): `AgentVersion()` returns the
parsed agent version and whether it is set; versions are abstracted
to numbers with `0` for `version.Zero`. -/
structure ModelCfg where
  agentVersion : Option Nat

/-- Model of `version.Zero` of the abstracted version numbers. -/
def versionZero : Nat := 0

/-- The state backend seen by the precheck shim: `ModelConfig()`
either fails or yields a config. -/
structure PrecheckState where
  modelConfig : Except EngErr ModelCfg

/-- Model of `precheckShim.AgentVersion` (src/unnamed/part_000, lines 25-35):
propagate a `ModelConfig` failure with `version.Zero`; fail with a
fresh error when the config carries no agent version; otherwise
return the config's agent version with no error.  The Go pair
`(version.Number, error)` is modelled as `Nat × Option EngErr`. -/
def precheckAgentVersion (st : PrecheckState) : Nat × Option EngErr :=
  match st.modelConfig with
  | .error e => (versionZero, some e)
  | .ok cfg =>
    match cfg.agentVersion with
    | none => (versionZero, some (.other 100))
    | some v => (v, none)

/-- The part of an environ config read by `Bootstrap`
(environs/config): `AdminSecret`/`AuthorizedKeys` are strings (empty
means unset), `CACert`/`CAPrivateKey` return a value and a presence
flag, modelled as `Option`. -/
structure EnvironConfig where
  adminSecret : String
  authorizedKeys : String
  caCert : Option String
  caPrivateKey : Option String

/-- The environ seen by `Bootstrap`: its config, the result of
`environs.VerifyStorage(environ.Storage())`, and the
provider-specific `environ.Bootstrap(cons)` (constraints abstracted
to a number). -/
structure Environ where
  config : EnvironConfig
  verifyStorage : Option EngErr
  bootstrapImpl : Nat → Option EngErr

/-- Model of `Bootstrap` (src/environs/bootstrap/bootstrap.go, lines 25-50):
reject configs with an empty admin-secret, empty authorized-keys,
missing CA certificate or missing CA private key, then verify
storage, and only then call `environ.Bootstrap(cons)`.  The second
component records whether `environ.Bootstrap` was invoked. -/
def bootstrap (environ : Environ) (cons : Nat) : Option EngErr × Bool :=
  if environ.config.adminSecret = "" then (some (.other 1), false)
  else if environ.config.authorizedKeys = "" then (some (.other 2), false)
  else if environ.config.caCert.isNone then (some (.other 3), false)
  else if environ.config.caPrivateKey.isNone then (some (.other 4), false)
  else
    match environ.verifyStorage with
    | some e => (some e, false)
    | none => (environ.bootstrapImpl cons, true)

/-- A config failing `Bootstrap`'s first check (no admin-secret). -/
def envBad : Environ :=
  { config := { adminSecret := "", authorizedKeys := "ssh-rsa k",
                caCert := some "cert", caPrivateKey := some "key" },
    verifyStorage := none,
    bootstrapImpl := fun _ => none }

/-- A config passing all of `Bootstrap`'s checks. -/
def envGood : Environ :=
  { config := { adminSecret := "sekrit", authorizedKeys := "ssh-rsa k",
                caCert := some "cert", caPrivateKey := some "key" },
    verifyStorage := none,
    bootstrapImpl := fun _ => none }

/-- The per-filesystem record of the storage listing (cmd/juju/
storage); only its presence matters to the type dispatch under
verification, so the fields are trimmed to a representative one. -/
structure FilesystemInfo where
  size : Nat

/-- A Go `interface{}` value as passed to the tabular formatter:
either the expected `map[string]FilesystemInfo` or a value of some
other dynamic type (identified by its type name). -/
inductive GoValue
  | fsMap (m : List (String × FilesystemInfo))
  | other (typeName : String)

/-- Model of `formatFilesystemListTabular` (src/unnamed/part_002, lines
18-25): type-assert the value to `map[string]FilesystemInfo`; on
mismatch return an `expected value of type …` error, otherwise write
the tabular summary (an `io.Writer` side effect that cannot fail,
abstracted away) and return nil. -/
def formatFilesystemListTabular (value : GoValue) : Except String Unit :=
  match value with
  | .fsMap _ => .ok ()
  | .other t =>
    .error ("expected value of type map[string]FilesystemInfo, got " ++ t)

/-! ### Basic list bookkeeping lemmas -/

theorem forall_mem_of_map_eq_self {α : Type} {f : α → α} :
    ∀ {l : List α}, l.map f = l → ∀ a ∈ l, f a = a := by
  intro l
  induction l with
  | nil => intro _ a ha; cases ha
  | cons x xs ih =>
    intro h a ha
    simp only [List.map_cons, List.cons.injEq] at h
    rcases List.mem_cons.mp ha with ha | ha
    · rw [ha]; exact h.1
    · exact ih h.2 a ha

theorem map_eq_self_of_forall {α : Type} {f : α → α} {l : List α}
    (h : ∀ a ∈ l, f a = a) : l.map f = l := by
  induction l with
  | nil => rfl
  | cons x xs ih =>
    simp only [List.map_cons, List.cons.injEq]
    exact ⟨h x (by simp), ih fun a ha => h a (by simp [ha])⟩

theorem keys_map_of_fst {f : String × Node → String × Node}
    (hf : ∀ p, (f p).1 = p.1) (ns : List (String × Node)) :
    (ns.map f).map Prod.fst = ns.map Prod.fst := by
  rw [List.map_map]
  exact List.map_congr_left fun p _ => hf p

theorem nodup_keys_unique {ns : List (String × Node)}
    (h : (ns.map Prod.fst).Nodup) {a : String} {x y : Node}
    (hx : (a, x) ∈ ns) (hy : (a, y) ∈ ns) : x = y := by
  induction ns with
  | nil => cases hx
  | cons p rest ih =>
    simp only [List.map_cons, List.nodup_cons] at h
    rcases List.mem_cons.mp hx with hx | hx
    · rcases List.mem_cons.mp hy with hy | hy
      · rw [← hx] at hy
        exact (congrArg Prod.snd hy).symm
      · exfalso
        apply h.1
        rw [show p.1 = a from congrArg Prod.fst hx.symm]
        exact List.mem_map_of_mem Prod.fst hy
    · rcases List.mem_cons.mp hy with hy | hy
      · exfalso
        apply h.1
        rw [show p.1 = a from congrArg Prod.fst hy.symm]
        exact List.mem_map_of_mem Prod.fst hx
      · exact ih h.2 hx hy

theorem mem_keys_exists {β : Type} {ns : List (String × β)} {a : String}
    (h : a ∈ ns.map Prod.fst) : ∃ x, (a, x) ∈ ns := by
  rcases List.mem_map.mp h with ⟨p, hp, hpa⟩
  exact ⟨p.2, by rw [← hpa]; exact hp⟩

/-! ### `isStarted` / `allInputsStarted` characterisations -/

theorem isStarted_iff {ns : List (String × Node)} {a : String} :
    isStarted ns a = true ↔ ∃ p ∈ ns, p.1 = a ∧ p.2.state = .started := by
  simp [isStarted, List.any_eq_true]

theorem allInputsStarted_iff {ns : List (String × Node)} {ins : List String} :
    allInputsStarted ns ins = true ↔ ∀ a ∈ ins, isStarted ns a = true := by
  simp [allInputsStarted, List.all_eq_true]

/-! ### The demotion order on node entries -/

theorem Demoted.refl (p : String × Node) : Demoted p p :=
  ⟨rfl, rfl, rfl, rfl, rfl, Or.inl rfl⟩

theorem Demoted.trans {r q p : String × Node}
    (h1 : Demoted r q) (h2 : Demoted q p) : Demoted r p := by
  obtain ⟨a1, b1, c1, d1, e1, f1⟩ := h1
  obtain ⟨a2, b2, c2, d2, e2, f2⟩ := h2
  refine ⟨a1.trans a2, b1.trans b2, c1.trans c2, d1.trans d2, e1.trans e2, ?_⟩
  rcases f1 with f1 | f1
  · rcases f2 with f2 | f2
    · exact Or.inl (f1.trans f2)
    · exact Or.inr ⟨f1.trans f2.1, f2.2⟩
  · rcases f2 with f2 | f2
    · exact Or.inr ⟨f1.1, f2 ▸ f1.2⟩
    · rw [f2.1] at f1; exact absurd f1.2 (by simp)

theorem demoteIfOrphan_cases (ns : List (String × Node)) (p : String × Node) :
    demoteIfOrphan ns p = p ∨
    (p.2.state = .started ∧
      allInputsStarted ns p.2.manifold.inputs = false ∧
      demoteIfOrphan ns p = (p.1, { p.2 with state := .stopping })) := by
  unfold demoteIfOrphan
  split
  · next h =>
    simp only [Bool.and_eq_true, Bool.not_eq_true'] at h
    right
    exact ⟨of_decide_eq_true h.1, h.2, rfl⟩
  · exact Or.inl rfl

theorem demoteIfOrphan_demoted (ns : List (String × Node)) (p : String × Node) :
    Demoted (demoteIfOrphan ns p) p := by
  rcases demoteIfOrphan_cases ns p with h | ⟨hs, _, h⟩
  · rw [h]; exact Demoted.refl p
  · rw [h]; exact ⟨rfl, rfl, rfl, rfl, rfl, Or.inr ⟨rfl, hs⟩⟩

theorem demoteIfOrphan_fst (ns : List (String × Node)) (p : String × Node) :
    (demoteIfOrphan ns p).1 = p.1 :=
  (demoteIfOrphan_demoted ns p).1

theorem mem_prune {ns : List (String × Node)} {p' : String × Node} :
    p' ∈ prune ns ↔ ∃ p ∈ ns, p' = demoteIfOrphan ns p := by
  simp only [prune, List.mem_map]
  constructor
  · rintro ⟨p, hp, rfl⟩; exact ⟨p, hp, rfl⟩
  · rintro ⟨p, hp, rfl⟩; exact ⟨p, hp, rfl⟩

theorem keys_prune (ns : List (String × Node)) :
    (prune ns).map Prod.fst = ns.map Prod.fst :=
  keys_map_of_fst (demoteIfOrphan_fst ns) ns

/-! ### The pruning pass reaches a fixed point -/

theorem countStarted_cons (p : String × Node) (rest : List (String × Node)) :
    countStarted (p :: rest) =
      countStarted rest + (if p.2.state = .started then 1 else 0) := by
  unfold countStarted
  rw [List.countP_cons]
  by_cases h : p.2.state = .started <;> simp [h]

theorem countStarted_prune_le (ms ns : List (String × Node)) :
    countStarted (ns.map (demoteIfOrphan ms)) ≤ countStarted ns := by
  induction ns with
  | nil => simp [countStarted]
  | cons p rest ih =>
    rw [List.map_cons, countStarted_cons, countStarted_cons]
    have hhead : (if (demoteIfOrphan ms p).2.state = .started then 1 else 0) ≤
        (if p.2.state = .started then 1 else 0) := by
      rcases demoteIfOrphan_cases ms p with h | ⟨hs, _, h⟩
      · rw [h]
      · rw [h]
        simp [hs]
    omega

theorem countStarted_prune_lt (ms ns : List (String × Node))
    (h : ns.map (demoteIfOrphan ms) ≠ ns) :
    countStarted (ns.map (demoteIfOrphan ms)) < countStarted ns := by
  induction ns with
  | nil => simp at h
  | cons p rest ih =>
    rw [List.map_cons, countStarted_cons, countStarted_cons]
    rcases demoteIfOrphan_cases ms p with hp | ⟨hs, _, hp⟩
    · have hrestne : rest.map (demoteIfOrphan ms) ≠ rest := by
        intro hr
        apply h
        rw [List.map_cons, hp, hr]
      have := ih hrestne
      rw [hp]
      omega
    · rw [hp]
      have hle := countStarted_prune_le ms rest
      have h1 : ((p.1, { p.2 with state := NodeState.stopping }) :
          String × Node).2.state ≠ .started := by simp
      rw [if_neg h1, if_pos hs]
      omega

theorem prune_eq_of_no_started (ns : List (String × Node))
    (h : countStarted ns = 0) : prune ns = ns := by
  apply map_eq_self_of_forall
  intro p hp
  rcases demoteIfOrphan_cases ns p with h1 | ⟨hs, _, _⟩
  · exact h1
  · exfalso
    have : 0 < countStarted ns := by
      apply List.countP_pos_iff.mpr
      exact ⟨p, hp, by simp [hs]⟩
    omega

theorem prune_iterate_fixed :
    ∀ (fuel : Nat) (ns : List (String × Node)), countStarted ns ≤ fuel →
      prune (prune^[fuel] ns) = prune^[fuel] ns := by
  intro fuel
  induction fuel with
  | zero =>
    intro ns h
    simp only [Function.iterate_zero, id]
    exact prune_eq_of_no_started ns (Nat.le_zero.mp h)
  | succ k ih =>
    intro ns h
    by_cases hfix : prune ns = ns
    · rw [Function.iterate_fixed hfix]
      exact hfix
    · rw [Function.iterate_succ_apply]
      apply ih
      have := countStarted_prune_lt ns ns (by simpa [prune] using hfix)
      simp only [prune] at *
      omega

theorem countStarted_le_length (ns : List (String × Node)) :
    countStarted ns ≤ ns.length :=
  List.countP_le_length _

theorem stabilize_fixed (ns : List (String × Node)) :
    prune (stabilize ns) = stabilize ns :=
  prune_iterate_fixed ns.length ns (countStarted_le_length ns)

theorem prune_eq_self_iff {ns : List (String × Node)} :
    prune ns = ns ↔
      ∀ p ∈ ns, p.2.state = .started →
        allInputsStarted ns p.2.manifold.inputs = true := by
  constructor
  · intro h p hp hs
    have := forall_mem_of_map_eq_self (f := demoteIfOrphan ns) h p hp
    rcases demoteIfOrphan_cases ns p with _ | ⟨_, hall, hd⟩
    · by_contra hna
      have hne : demoteIfOrphan ns p ≠ p := by
        unfold demoteIfOrphan
        rw [if_pos]
        · intro hcontra
          have := congrArg (fun q => q.2.state) hcontra
          simp at this
          rw [hs] at this
          exact absurd this (by simp)
        · simp [hs, hna]
          cases hb : allInputsStarted ns p.2.manifold.inputs
          · rfl
          · exact absurd hb hna
      exact hne this
    · rw [hd] at this
      have := congrArg (fun q => q.2.state) this
      simp at this
      rw [hs] at this
      exact absurd this (by simp)
  · intro h
    apply map_eq_self_of_forall
    intro p hp
    rcases demoteIfOrphan_cases ns p with h1 | ⟨hs, hall, _⟩
    · exact h1
    · rw [h p hp hs] at hall
      cases hall

/-- Every entry of a stabilised table comes from an entry of the
original table, at most demoted from `started` to `stopping`. -/
theorem mem_stabilize_demoted {ns : List (String × Node)} :
    ∀ p' ∈ stabilize ns, ∃ p ∈ ns, Demoted p' p := by
  unfold stabilize
  generalize ns.length = k
  induction k with
  | zero => intro p' hp'; exact ⟨p', hp', Demoted.refl p'⟩
  | succ m ih =>
    intro p' hp'
    rw [Function.iterate_succ_apply'] at hp'
    rcases mem_prune.mp hp' with ⟨q, hq, rfl⟩
    rcases ih q hq with ⟨p, hp, hd⟩
    exact ⟨p, hp, (demoteIfOrphan_demoted _ q).trans hd⟩

/-- Conversely, every entry of the original table survives into the
stabilised table, at most demoted. -/
theorem stabilize_surj {ns : List (String × Node)} :
    ∀ p ∈ ns, ∃ p' ∈ stabilize ns, Demoted p' p := by
  unfold stabilize
  generalize ns.length = k
  induction k with
  | zero => intro p hp; exact ⟨p, hp, Demoted.refl p⟩
  | succ m ih =>
    intro p hp
    rcases ih p hp with ⟨q, hq, hd⟩
    rw [Function.iterate_succ_apply']
    refine ⟨demoteIfOrphan (prune^[m] ns) q, ?_, ?_⟩
    · show demoteIfOrphan (prune^[m] ns) q ∈ prune (prune^[m] ns)
      unfold prune
      exact List.mem_map_of_mem _ hq
    · exact (demoteIfOrphan_demoted (prune^[m] ns) q).trans hd

theorem keys_iterate_prune (k : Nat) (ns : List (String × Node)) :
    (prune^[k] ns).map Prod.fst = ns.map Prod.fst := by
  induction k with
  | zero => simp
  | succ m ih => rw [Function.iterate_succ_apply', keys_prune, ih]

theorem keys_stabilize (ns : List (String × Node)) :
    (stabilize ns).map Prod.fst = ns.map Prod.fst :=
  keys_iterate_prune ns.length ns

theorem keys_setNode (ns : List (String × Node)) (n : String) (f : Node → Node) :
    (setNode ns n f).map Prod.fst = ns.map Prod.fst := by
  apply keys_map_of_fst
  intro p
  by_cases h : p.1 = n <;> simp [h]

theorem mem_setNode {ns : List (String × Node)} {n : String} {f : Node → Node}
    {p : String × Node} :
    p ∈ setNode ns n f ↔
      ∃ q ∈ ns, p = if q.1 = n then (q.1, f q.2) else q := by
  simp only [setNode, List.mem_map]
  constructor
  · rintro ⟨q, hq, rfl⟩; exact ⟨q, hq, rfl⟩
  · rintro ⟨q, hq, rfl⟩; exact ⟨q, hq, rfl⟩

theorem keys_demoteAllStarted (ns : List (String × Node)) :
    (demoteAllStarted ns).map Prod.fst = ns.map Prod.fst := by
  apply keys_map_of_fst
  intro p
  by_cases h : p.2.state = .started <;> simp [h]

theorem mem_demoteAllStarted {ns : List (String × Node)} {p : String × Node} :
    p ∈ demoteAllStarted ns ↔
      ∃ q ∈ ns, p = if q.2.state = .started
        then (q.1, { q.2 with state := .stopping }) else q := by
  simp only [demoteAllStarted, List.mem_map]
  constructor
  · rintro ⟨q, hq, rfl⟩; exact ⟨q, hq, rfl⟩
  · rintro ⟨q, hq, rfl⟩; exact ⟨q, hq, rfl⟩

theorem demoteAllStarted_no_started {ns : List (String × Node)} :
    ∀ p ∈ demoteAllStarted ns, p.2.state ≠ .started := by
  intro p hp
  rcases mem_demoteAllStarted.mp hp with ⟨q, _, rfl⟩
  by_cases h : q.2.state = .started <;> simp [h]

theorem keys_demoteDependentsOf (ns : List (String × Node)) (n : String) :
    (demoteDependentsOf ns n).map Prod.fst = ns.map Prod.fst := by
  apply keys_map_of_fst
  intro p
  by_cases h : (p.2.state = NodeState.started && decide (n ∈ p.2.manifold.inputs)
      && decide (p.1 ≠ n)) = true
  · rw [if_pos h]
  · rw [if_neg h]

theorem mem_demoteDependentsOf {ns : List (String × Node)} {n : String}
    {p : String × Node} :
    p ∈ demoteDependentsOf ns n ↔
      ∃ q ∈ ns, p = if q.2.state = .started && decide (n ∈ q.2.manifold.inputs)
          && decide (q.1 ≠ n)
        then (q.1, { q.2 with state := .stopping }) else q := by
  simp only [demoteDependentsOf, List.mem_map]
  constructor
  · rintro ⟨q, hq, rfl⟩; exact ⟨q, hq, rfl⟩
  · rintro ⟨q, hq, rfl⟩; exact ⟨q, hq, rfl⟩

theorem mem_removeWorker {lw : List (String × Nat)} {n : String}
    {q : String × Nat} :
    q ∈ removeWorker lw n ↔ q ∈ lw ∧ q.1 ≠ n := by
  simp [removeWorker, List.mem_filter]

theorem removeWorker_keys_nodup {lw : List (String × Nat)} {n : String}
    (h : (lw.map Prod.fst).Nodup) :
    ((removeWorker lw n).map Prod.fst).Nodup :=
  ((List.filter_sublist lw).map Prod.fst).nodup h

theorem isStarted_append_left {ns xs : List (String × Node)} {a : String}
    (h : isStarted ns a = true) : isStarted (ns ++ xs) a = true := by
  rcases isStarted_iff.mp h with ⟨p, hp, hpa, hps⟩
  exact isStarted_iff.mpr ⟨p, List.mem_append_left xs hp, hpa, hps⟩

theorem allInputsStarted_append_left {ns xs : List (String × Node)}
    {ins : List String} (h : allInputsStarted ns ins = true) :
    allInputsStarted (ns ++ xs) ins = true := by
  rw [allInputsStarted_iff] at h ⊢
  exact fun a ha => isStarted_append_left (h a ha)

theorem isStarted_setNode_of_not_started_at {ns : List (String × Node)}
    {n : String} {f : Node → Node} {a : String}
    (hn : ∀ nd', (n, nd') ∈ ns → nd'.state ≠ .started)
    (h : isStarted ns a = true) : isStarted (setNode ns n f) a = true := by
  rcases isStarted_iff.mp h with ⟨p, hp, hpa, hps⟩
  have hpn : p.1 ≠ n := by
    intro hcontra
    exact hn p.2 (by rw [← hcontra]; exact hp) hps
  apply isStarted_iff.mpr
  refine ⟨p, ?_, hpa, hps⟩
  exact mem_setNode.mpr ⟨p, hp, by rw [if_neg hpn]⟩

theorem allInputsStarted_setNode_of_not_started_at {ns : List (String × Node)}
    {n : String} {f : Node → Node} {ins : List String}
    (hn : ∀ nd', (n, nd') ∈ ns → nd'.state ≠ .started)
    (h : allInputsStarted ns ins = true) :
    allInputsStarted (setNode ns n f) ins = true := by
  rw [allInputsStarted_iff] at h ⊢
  exact fun a ha => isStarted_setNode_of_not_started_at hn (h a ha)

theorem Inv.init : Inv Engine.init := by
  constructor <;> simp [Engine.init]

theorem install_ok_elim {g : Engine} {m : Manifold} {g' : Engine}
    (h : g.install m = .ok g') :
    g.installed m.name = false ∧
      g' = { g with nodes := g.nodes ++ [(m.name, m.newNode)] } := by
  unfold Engine.install at h
  split at h
  · cases h
  · next hcond =>
    refine ⟨by simpa using hcond, ?_⟩
    cases h
    rfl

theorem not_installed_iff {g : Engine} {n : String} :
    g.installed n = false ↔ ∀ p ∈ g.nodes, p.1 ≠ n := by
  unfold Engine.installed
  rw [← Bool.not_eq_true, List.any_eq_true]
  push_neg
  constructor
  · intro h p hp
    have := h p hp
    simpa using this
  · intro h p hp
    simpa using h p hp

/-! ### Projection equations for the effect functions -/

theorem doStart_nodes (g : Engine) (n : String) (out : Value) :
    (doStart g n out).nodes = setNode g.nodes n (fun nd =>
      { nd with state := .started,
                outputCache := some
                  (if nd.manifold.hasOutput then out else ⟨0, g.nextW⟩) }) := rfl

theorem doStart_liveWorkers (g : Engine) (n : String) (out : Value) :
    (doStart g n out).liveWorkers = (n, g.nextW) :: g.liveWorkers := rfl

theorem doStart_phase (g : Engine) (n : String) (out : Value) :
    (doStart g n out).phase = g.phase := rfl

theorem doStartFail_nodes (g : Engine) (n : String) (e : EngErr) :
    (doStartFail g n e).nodes = setNode g.nodes n (fun nd =>
      { nd with state := .errorSt, lastError := some e,
                retryAt := g.now + 1 }) := rfl

theorem doStartFail_liveWorkers (g : Engine) (n : String) (e : EngErr) :
    (doStartFail g n e).liveWorkers = g.liveWorkers := rfl

theorem doStartFail_phase (g : Engine) (n : String) (e : EngErr) :
    (doStartFail g n e).phase = g.phase := rfl

theorem doStopComplete_nodes (g : Engine) (n : String) (e : Option EngErr) :
    (doStopComplete g n e).nodes = stabilize (setNode g.nodes n (fun nd =>
      { nd with state := .stopped,
                lastError := match e with
                  | some err => some err
                  | none => nd.lastError })) := rfl

theorem doStopComplete_liveWorkers (g : Engine) (n : String) (e : Option EngErr) :
    (doStopComplete g n e).liveWorkers = removeWorker g.liveWorkers n := rfl

theorem doStopComplete_phase (g : Engine) (n : String) (e : Option EngErr) :
    (doStopComplete g n e).phase = g.phase := rfl

theorem doDoneErr_nodes (g : Engine) (n : String) (e : EngErr) :
    (doDoneErr g n e).nodes = stabilize (setNode g.nodes n (fun nd =>
      { nd with state := .errorSt, lastError := some e,
                retryAt := g.now + 1 })) := rfl

theorem doDoneErr_liveWorkers (g : Engine) (n : String) (e : EngErr) :
    (doDoneErr g n e).liveWorkers = removeWorker g.liveWorkers n := rfl

theorem doDoneErr_phase (g : Engine) (n : String) (e : EngErr) :
    (doDoneErr g n e).phase = g.phase := rfl

theorem doDoneFatal_nodes (g : Engine) (n : String) (e : EngErr) :
    (doDoneFatal g n e).nodes = demoteAllStarted (setNode g.nodes n (fun nd =>
      { nd with state := .stopped, lastError := some e })) := rfl

theorem doDoneFatal_liveWorkers (g : Engine) (n : String) (e : EngErr) :
    (doDoneFatal g n e).liveWorkers = removeWorker g.liveWorkers n := rfl

theorem doDoneFatal_phase (g : Engine) (n : String) (e : EngErr) :
    (doDoneFatal g n e).phase = .stoppingAll (some e) := rfl

theorem doShutdownDone_nodes (g : Engine) (n : String) (nd : Node)
    (e : Option EngErr) :
    (doShutdownDone g n nd e).nodes = setNode g.nodes n (fun m =>
      { m with state := .stopped,
               lastError := match e with
                 | some err => some err
                 | none => m.lastError }) := rfl

theorem doShutdownDone_liveWorkers (g : Engine) (n : String) (nd : Node)
    (e : Option EngErr) :
    (doShutdownDone g n nd e).liveWorkers = removeWorker g.liveWorkers n := rfl

theorem doStopNode_nodes (g : Engine) (n : String) :
    (doStopNode g n).nodes = stabilize (setNode g.nodes n (fun nd =>
      { nd with state := .stopping })) := rfl

theorem doStopNode_liveWorkers (g : Engine) (n : String) :
    (doStopNode g n).liveWorkers = g.liveWorkers := rfl

theorem doStopNode_phase (g : Engine) (n : String) :
    (doStopNode g n).phase = g.phase := rfl

theorem doUninstall_nodes (g : Engine) (n : String) :
    (doUninstall g n).nodes =
      stabilize (g.nodes.filter (fun p => decide (p.1 ≠ n))) := rfl

theorem doUninstall_liveWorkers (g : Engine) (n : String) :
    (doUninstall g n).liveWorkers = g.liveWorkers := rfl

theorem doUninstall_phase (g : Engine) (n : String) :
    (doUninstall g n).phase = g.phase := rfl

theorem doRequestStop_nodes (g : Engine) :
    (doRequestStop g).nodes = demoteAllStarted g.nodes := rfl

theorem doRequestStop_liveWorkers (g : Engine) :
    (doRequestStop g).liveWorkers = g.liveWorkers := rfl

theorem doRequestStop_phase (g : Engine) :
    (doRequestStop g).phase = .stoppingAll none := rfl

theorem doFinishStop_nodes (g : Engine) :
    (doFinishStop g).nodes = g.nodes := rfl

theorem doFinishStop_liveWorkers (g : Engine) :
    (doFinishStop g).liveWorkers = g.liveWorkers := rfl

theorem doTick_nodes (g : Engine) : (doTick g).nodes = g.nodes := rfl

theorem doTick_liveWorkers (g : Engine) :
    (doTick g).liveWorkers = g.liveWorkers := rfl

theorem doTick_phase (g : Engine) : (doTick g).phase = g.phase := rfl

/-! ### Preservation of the invariant, case by case -/

theorem inv_install {g : Engine} {m : Manifold} {g' : Engine}
    (hInv : Inv g) (hph : g.phase = .running) (hok : g.install m = .ok g') :
    Inv g' := by
  obtain ⟨hfree, rfl⟩ := install_ok_elim hok
  have hfresh : ∀ p ∈ g.nodes, p.1 ≠ m.name := not_installed_iff.mp hfree
  constructor
  · rw [List.map_append, List.nodup_append]
    refine ⟨hInv.keysNodup, by simp, ?_⟩
    intro a ha hb
    simp only [List.map_cons, List.map_nil, List.mem_singleton] at hb
    rcases mem_keys_exists ha with ⟨x, hx⟩
    exact hfresh (a, x) hx hb
  · exact hInv.lwNodup
  · intro q hq
    rcases hInv.lwDom q hq with ⟨p, hp, hpq, hps⟩
    exact ⟨p, List.mem_append_left _ hp, hpq, hps⟩
  · intro p hp hss
    rcases List.mem_append.mp hp with hp | hp
    · exact hInv.lwTotal p hp hss
    · simp only [List.mem_singleton] at hp
      rw [hp] at hss
      simp [Manifold.newNode] at hss
  · intro p hp hps
    rcases List.mem_append.mp hp with hp | hp
    · exact allInputsStarted_append_left (hInv.inputsStarted p hp hps)
    · simp only [List.mem_singleton] at hp
      rw [hp] at hps
      simp [Manifold.newNode] at hps
  · intro p hp hps
    rcases List.mem_append.mp hp with hp | hp
    · exact hInv.startedOutput p hp hps
    · simp only [List.mem_singleton] at hp
      rw [hp] at hps
      simp [Manifold.newNode] at hps
  · intro hne
    exact absurd hph hne
  · intro r hr
    rw [hph] at hr
    cases hr

theorem inv_startOk {g : Engine} {n : String} {nd : Node} {out : Value}
    (hInv : Inv g) (hph : g.phase = .running) (hmem : (n, nd) ∈ g.nodes)
    (hst : nd.state = .stopped ∨ (nd.state = .errorSt ∧ nd.retryAt ≤ g.now))
    (hall : allInputsStarted g.nodes nd.manifold.inputs = true) :
    Inv (doStart g n out) := by
  have hnds : ∀ nd', (n, nd') ∈ g.nodes → nd'.state ≠ .started := by
    intro nd' h' hcontra
    have : nd' = nd := nodup_keys_unique hInv.keysNodup h' hmem
    rw [this] at hcontra
    rcases hst with h | h
    · rw [h] at hcontra; cases hcontra
    · rw [h.1] at hcontra; cases hcontra
  have hnolive : ∀ w, (n, w) ∉ g.liveWorkers := by
    intro w hw
    rcases hInv.lwDom (n, w) hw with ⟨p, hp, hpq, hps⟩
    have hpn : (n, p.2) ∈ g.nodes := by
      have : p = (n, p.2) := by
        rw [Prod.ext_iff]
        exact ⟨hpq, rfl⟩
      rw [← this]
      exact hp
    have hund : p.2 = nd := nodup_keys_unique hInv.keysNodup hpn hmem
    rcases hst with h | h
    · rw [hund, h] at hps; rcases hps with hps | hps <;> cases hps
    · rw [hund, h.1] at hps; rcases hps with hps | hps <;> cases hps
  constructor
  · rw [doStart_nodes, keys_setNode]
    exact hInv.keysNodup
  · rw [doStart_liveWorkers, List.map_cons, List.nodup_cons]
    refine ⟨?_, hInv.lwNodup⟩
    intro hcontra
    rcases mem_keys_exists hcontra with ⟨w, hw⟩
    exact hnolive w hw
  · intro q hq
    rw [doStart_liveWorkers] at hq
    rw [doStart_nodes]
    rcases List.mem_cons.mp hq with rfl | hq
    · refine ⟨_, mem_setNode.mpr ⟨(n, nd), hmem, rfl⟩, by simp, by simp⟩
    · rcases hInv.lwDom q hq with ⟨p, hp, hpq, hps⟩
      have hpn : p.1 ≠ n := by
        intro hcontra
        have hmem' : (n, p.2) ∈ g.nodes := by
          have he : p = (n, p.2) := by
            rw [Prod.ext_iff]; exact ⟨hcontra, rfl⟩
          rw [← he]; exact hp
        rcases hps with hps | hps
        · exact hnds p.2 hmem' hps
        · have hund : p.2 = nd := nodup_keys_unique hInv.keysNodup hmem' hmem
          rcases hst with h | h
          · rw [hund, h] at hps; cases hps
          · rw [hund, h.1] at hps; cases hps
      refine ⟨p, ?_, hpq, hps⟩
      exact mem_setNode.mpr ⟨p, hp, by rw [if_neg hpn]⟩
  · intro p' hp' hss
    rw [doStart_nodes] at hp'
    rw [doStart_liveWorkers]
    rcases mem_setNode.mp hp' with ⟨q, hq, hcond⟩
    by_cases hqn : q.1 = n
    · rw [if_pos hqn] at hcond
      refine ⟨g.nextW, ?_⟩
      rw [hcond]
      show (q.1, g.nextW) ∈ (n, g.nextW) :: g.liveWorkers
      rw [hqn]
      exact List.mem_cons_self _ _
    · rw [if_neg hqn] at hcond
      rw [hcond]
      rcases hInv.lwTotal q hq (by rw [← hcond]; exact hss) with ⟨w, hw⟩
      exact ⟨w, List.mem_cons_of_mem _ hw⟩
  · intro p' hp' hps
    rw [doStart_nodes] at hp' ⊢
    rcases mem_setNode.mp hp' with ⟨q, hq, hcond⟩
    by_cases hqn : q.1 = n
    · rw [if_pos hqn] at hcond
      have hqnd : q.2 = nd := by
        apply nodup_keys_unique hInv.keysNodup _ hmem
        have he : q = (n, q.2) := by
          rw [Prod.ext_iff]; exact ⟨hqn, rfl⟩
        rw [← he]; exact hq
      have hins : p'.2.manifold.inputs = nd.manifold.inputs := by
        rw [hcond, hqnd]
      rw [hins]
      exact allInputsStarted_setNode_of_not_started_at hnds hall
    · rw [if_neg hqn] at hcond
      rw [hcond]
      apply allInputsStarted_setNode_of_not_started_at hnds
      exact hInv.inputsStarted q hq (by rw [← hcond]; exact hps)
  · intro p' hp' hps
    rw [doStart_nodes] at hp'
    rcases mem_setNode.mp hp' with ⟨q, hq, hcond⟩
    by_cases hqn : q.1 = n
    · rw [if_pos hqn] at hcond
      rw [hcond]
      simp
    · rw [if_neg hqn] at hcond
      rw [hcond]
      exact hInv.startedOutput q hq (by rw [← hcond]; exact hps)
  · intro hne
    rw [doStart_phase, hph] at hne
    exact absurd rfl hne
  · intro r hr
    rw [doStart_phase, hph] at hr
    cases hr

theorem inv_startFail {g : Engine} {n : String} {nd : Node} {e : EngErr}
    (hInv : Inv g) (hph : g.phase = .running) (hmem : (n, nd) ∈ g.nodes)
    (hst : nd.state = .stopped ∨ (nd.state = .errorSt ∧ nd.retryAt ≤ g.now)) :
    Inv (doStartFail g n e) := by
  have hnds : ∀ nd', (n, nd') ∈ g.nodes → nd'.state ≠ .started := by
    intro nd' h' hcontra
    have : nd' = nd := nodup_keys_unique hInv.keysNodup h' hmem
    rw [this] at hcontra
    rcases hst with h | h
    · rw [h] at hcontra; cases hcontra
    · rw [h.1] at hcontra; cases hcontra
  have hndss : ∀ nd', (n, nd') ∈ g.nodes →
      ¬(nd'.state = .started ∨ nd'.state = .stopping) := by
    intro nd' h' hcontra
    have he : nd' = nd := nodup_keys_unique hInv.keysNodup h' hmem
    rw [he] at hcontra
    rcases hst with h | h
    · rw [h] at hcontra; rcases hcontra with hc | hc <;> cases hc
    · rw [h.1] at hcontra; rcases hcontra with hc | hc <;> cases hc
  constructor
  · rw [doStartFail_nodes, keys_setNode]
    exact hInv.keysNodup
  · rw [doStartFail_liveWorkers]
    exact hInv.lwNodup
  · intro q hq
    rw [doStartFail_liveWorkers] at hq
    rw [doStartFail_nodes]
    rcases hInv.lwDom q hq with ⟨p, hp, hpq, hps⟩
    have hpn : p.1 ≠ n := by
      intro hcontra
      apply hndss p.2
      · have he : p = (n, p.2) := by
          rw [Prod.ext_iff]; exact ⟨hcontra, rfl⟩
        rw [← he]; exact hp
      · exact hps
    refine ⟨p, ?_, hpq, hps⟩
    exact mem_setNode.mpr ⟨p, hp, by rw [if_neg hpn]⟩
  · intro p' hp' hss
    rw [doStartFail_nodes] at hp'
    rw [doStartFail_liveWorkers]
    rcases mem_setNode.mp hp' with ⟨q, hq, hcond⟩
    by_cases hqn : q.1 = n
    · rw [if_pos hqn] at hcond
      rw [hcond] at hss
      simp at hss
    · rw [if_neg hqn] at hcond
      rw [hcond]
      exact hInv.lwTotal q hq (by rw [← hcond]; exact hss)
  · intro p' hp' hps
    rw [doStartFail_nodes] at hp' ⊢
    rcases mem_setNode.mp hp' with ⟨q, hq, hcond⟩
    by_cases hqn : q.1 = n
    · rw [if_pos hqn] at hcond
      rw [hcond] at hps
      simp at hps
    · rw [if_neg hqn] at hcond
      rw [hcond]
      apply allInputsStarted_setNode_of_not_started_at hnds
      exact hInv.inputsStarted q hq (by rw [← hcond]; exact hps)
  · intro p' hp' hps
    rw [doStartFail_nodes] at hp'
    rcases mem_setNode.mp hp' with ⟨q, hq, hcond⟩
    by_cases hqn : q.1 = n
    · rw [if_pos hqn] at hcond
      rw [hcond] at hps
      simp at hps
    · rw [if_neg hqn] at hcond
      rw [hcond]
      exact hInv.startedOutput q hq (by rw [← hcond]; exact hps)
  · intro hne
    rw [doStartFail_phase, hph] at hne
    exact absurd rfl hne
  · intro r hr
    rw [doStartFail_phase, hph] at hr
    cases hr

/-! ### Transport of the invariant conjuncts through `stabilize` -/

theorem inputsStarted_stabilize (ms : List (String × Node)) :
    ∀ p ∈ stabilize ms, p.2.state = .started →
      allInputsStarted (stabilize ms) p.2.manifold.inputs = true :=
  prune_eq_self_iff.mp (stabilize_fixed ms)

theorem startedOutput_stabilize {ms : List (String × Node)}
    (h : ∀ p ∈ ms, p.2.state = .started → p.2.outputCache.isSome = true) :
    ∀ p' ∈ stabilize ms, p'.2.state = .started →
      p'.2.outputCache.isSome = true := by
  intro p' hp' hps
  rcases mem_stabilize_demoted p' hp' with ⟨p, hp, hd⟩
  obtain ⟨_, _, hout, _, _, hstate⟩ := hd
  rcases hstate with hstate | hstate
  · rw [hout]
    exact h p hp (by rw [← hstate]; exact hps)
  · rw [hstate.1] at hps; cases hps

theorem mem_stabilize_ss {ms : List (String × Node)} :
    ∀ p' ∈ stabilize ms, (p'.2.state = .started ∨ p'.2.state = .stopping) →
      ∃ p ∈ ms, p'.1 = p.1 ∧ (p.2.state = .started ∨ p.2.state = .stopping) := by
  intro p' hp' hss
  rcases mem_stabilize_demoted p' hp' with ⟨p, hp, hd⟩
  obtain ⟨hfst, _, _, _, _, hstate⟩ := hd
  rcases hstate with hstate | hstate
  · exact ⟨p, hp, hfst, by rw [← hstate]; exact hss⟩
  · exact ⟨p, hp, hfst, Or.inl hstate.2⟩

theorem stabilize_surj_ss {ms : List (String × Node)} :
    ∀ p ∈ ms, (p.2.state = .started ∨ p.2.state = .stopping) →
      ∃ p' ∈ stabilize ms, p'.1 = p.1 ∧
        (p'.2.state = .started ∨ p'.2.state = .stopping) := by
  intro p hp hss
  rcases stabilize_surj p hp with ⟨p', hp', hd⟩
  obtain ⟨hfst, _, _, _, _, hstate⟩ := hd
  rcases hstate with hstate | hstate
  · exact ⟨p', hp', hfst, by rw [hstate]; exact hss⟩
  · exact ⟨p', hp', hfst, Or.inr hstate.1⟩

theorem stabilize_no_started {ms : List (String × Node)}
    (h : ∀ p ∈ ms, p.2.state ≠ .started) :
    ∀ p' ∈ stabilize ms, p'.2.state ≠ .started := by
  intro p' hp' hps
  rcases mem_stabilize_demoted p' hp' with ⟨p, hp, hd⟩
  obtain ⟨_, _, _, _, _, hstate⟩ := hd
  rcases hstate with hstate | hstate
  · exact h p hp (hstate ▸ hps)
  · rw [hstate.1] at hps; cases hps

/-- Shared preservation argument for worker-completion effects of the
shape `stabilize (setNode …)` plus `removeWorker`, where the updated
node ends in a worker-free state. -/
theorem inv_stabilize_setNode_removeWorker {g : Engine} {n : String}
    {f : Node → Node} (hInv : Inv g) (hph : g.phase = .running)
    (hfdead : ∀ nd, (f nd).state ≠ .started ∧ (f nd).state ≠ .stopping)
    (hfout : ∀ nd, (f nd).state = .started → (f nd).outputCache.isSome = true) :
    Inv { g with nodes := stabilize (setNode g.nodes n f),
                 liveWorkers := removeWorker g.liveWorkers n } := by
  constructor
  · show ((stabilize (setNode g.nodes n f)).map Prod.fst).Nodup
    rw [keys_stabilize, keys_setNode]
    exact hInv.keysNodup
  · exact removeWorker_keys_nodup hInv.lwNodup
  · intro q hq
    rcases mem_removeWorker.mp hq with ⟨hql, hqn⟩
    rcases hInv.lwDom q hql with ⟨p, hp, hpq, hps⟩
    have hpn : p.1 ≠ n := by rw [hpq]; exact hqn
    have hpmem : p ∈ setNode g.nodes n f :=
      mem_setNode.mpr ⟨p, hp, by rw [if_neg hpn]⟩
    rcases stabilize_surj_ss p hpmem hps with ⟨p', hp', hfst, hss⟩
    exact ⟨p', hp', by rw [hfst]; exact hpq, hss⟩
  · intro p' hp' hss
    rcases mem_stabilize_ss p' hp' hss with ⟨p, hp, hfst, hps⟩
    rcases mem_setNode.mp hp with ⟨q, hq, hcond⟩
    by_cases hqn : q.1 = n
    · rw [if_pos hqn] at hcond
      rw [hcond] at hps
      rcases hps with h | h
      · exact absurd h (hfdead q.2).1
      · exact absurd h (hfdead q.2).2
    · rw [if_neg hqn] at hcond
      rcases hInv.lwTotal q hq (by rw [← hcond]; exact hps) with ⟨w, hw⟩
      refine ⟨w, mem_removeWorker.mpr ⟨?_, ?_⟩⟩
      · rw [hfst, hcond]; exact hw
      · rw [hfst, hcond]; exact hqn
  · exact inputsStarted_stabilize _
  · apply startedOutput_stabilize
    intro p hp hps
    rcases mem_setNode.mp hp with ⟨q, hq, hcond⟩
    by_cases hqn : q.1 = n
    · rw [if_pos hqn] at hcond
      rw [hcond] at hps ⊢
      exact hfout q.2 hps
    · rw [if_neg hqn] at hcond
      rw [hcond] at hps ⊢
      exact hInv.startedOutput q hq hps
  · intro hne
    exact absurd hph hne
  · intro r hr
    have hr2 : g.phase = Phase.done r := hr
    rw [hph] at hr2
    cases hr2

theorem inv_stopComplete {g : Engine} {n : String} {e : Option EngErr}
    (hInv : Inv g) (hph : g.phase = .running) :
    Inv (doStopComplete g n e) := by
  apply inv_stabilize_setNode_removeWorker hInv hph
  · intro nd
    constructor <;> intro h <;> cases h
  · intro nd h
    cases h

theorem inv_doneErr {g : Engine} {n : String} {e : EngErr}
    (hInv : Inv g) (hph : g.phase = .running) :
    Inv (doDoneErr g n e) := by
  apply inv_stabilize_setNode_removeWorker hInv hph
  · intro nd
    constructor <;> intro h <;> cases h
  · intro nd h
    cases h

theorem inv_stopNode {g : Engine} {n : String} {nd : Node}
    (hInv : Inv g) (hph : g.phase = .running) (hmem : (n, nd) ∈ g.nodes)
    (hst : nd.state = .started) :
    Inv (doStopNode g n) := by
  constructor
  · rw [doStopNode_nodes, keys_stabilize, keys_setNode]
    exact hInv.keysNodup
  · rw [doStopNode_liveWorkers]
    exact hInv.lwNodup
  · intro q hq
    rw [doStopNode_liveWorkers] at hq
    rw [doStopNode_nodes]
    rcases hInv.lwDom q hq with ⟨p, hp, hpq, hps⟩
    by_cases hpn : p.1 = n
    · have hpmem : (p.1, { p.2 with state := NodeState.stopping }) ∈
          setNode g.nodes n (fun m => { m with state := .stopping }) :=
        mem_setNode.mpr ⟨p, hp, by rw [if_pos hpn]⟩
      rcases stabilize_surj_ss _ hpmem (Or.inr rfl) with ⟨p', hp', hfst, hss⟩
      exact ⟨p', hp', by rw [hfst]; exact hpq, hss⟩
    · have hpmem : p ∈ setNode g.nodes n (fun m => { m with state := .stopping }) :=
        mem_setNode.mpr ⟨p, hp, by rw [if_neg hpn]⟩
      rcases stabilize_surj_ss p hpmem hps with ⟨p', hp', hfst, hss⟩
      exact ⟨p', hp', by rw [hfst]; exact hpq, hss⟩
  · intro p' hp' hss
    rw [doStopNode_nodes] at hp'
    rw [doStopNode_liveWorkers]
    rcases mem_stabilize_ss p' hp' hss with ⟨p, hp, hfst, hps⟩
    rcases mem_setNode.mp hp with ⟨q, hq, hcond⟩
    by_cases hqn : q.1 = n
    · have hqnd : q.2 = nd := by
        apply nodup_keys_unique hInv.keysNodup _ hmem
        have he : q = (n, q.2) := by
          rw [Prod.ext_iff]; exact ⟨hqn, rfl⟩
        rw [← he]; exact hq
      rcases hInv.lwTotal q hq (Or.inl (by rw [hqnd]; exact hst)) with ⟨w, hw⟩
      rw [if_pos hqn] at hcond
      refine ⟨w, ?_⟩
      rw [hfst, hcond]
      exact hw
    · rw [if_neg hqn] at hcond
      rcases hInv.lwTotal q hq (by rw [← hcond]; exact hps) with ⟨w, hw⟩
      refine ⟨w, ?_⟩
      rw [hfst, hcond]
      exact hw
  · rw [doStopNode_nodes]
    exact inputsStarted_stabilize _
  · rw [doStopNode_nodes]
    apply startedOutput_stabilize
    intro p hp hps
    rcases mem_setNode.mp hp with ⟨q, hq, hcond⟩
    by_cases hqn : q.1 = n
    · rw [if_pos hqn] at hcond
      rw [hcond] at hps
      cases hps
    · rw [if_neg hqn] at hcond
      rw [hcond] at hps ⊢
      exact hInv.startedOutput q hq hps
  · intro hne
    rw [doStopNode_phase, hph] at hne
    exact absurd rfl hne
  · intro r hr
    rw [doStopNode_phase, hph] at hr
    cases hr

theorem inv_uninstall {g : Engine} {n : String} {nd : Node}
    (hInv : Inv g) (hph : g.phase = .running) (hmem : (n, nd) ∈ g.nodes)
    (hst : nd.state = .stopped ∨ nd.state = .errorSt) :
    Inv (doUninstall g n) := by
  have hfilter_sub :
      List.Sublist (g.nodes.filter (fun p => decide (p.1 ≠ n))) g.nodes :=
    List.filter_sublist g.nodes
  constructor
  · rw [doUninstall_nodes, keys_stabilize]
    exact (hfilter_sub.map Prod.fst).nodup hInv.keysNodup
  · rw [doUninstall_liveWorkers]
    exact hInv.lwNodup
  · intro q hq
    rw [doUninstall_liveWorkers] at hq
    rw [doUninstall_nodes]
    rcases hInv.lwDom q hq with ⟨p, hp, hpq, hps⟩
    have hpn : p.1 ≠ n := by
      intro hcontra
      have hmem' : (n, p.2) ∈ g.nodes := by
        have he : p = (n, p.2) := by
          rw [Prod.ext_iff]; exact ⟨hcontra, rfl⟩
        rw [← he]; exact hp
      have hund : p.2 = nd := nodup_keys_unique hInv.keysNodup hmem' hmem
      rcases hst with h | h <;> rw [hund, h] at hps <;>
        rcases hps with hps | hps <;> cases hps
    have hpmem : p ∈ g.nodes.filter (fun p => decide (p.1 ≠ n)) :=
      List.mem_filter.mpr ⟨hp, by simpa using hpn⟩
    rcases stabilize_surj_ss p hpmem hps with ⟨p', hp', hfst, hss⟩
    exact ⟨p', hp', by rw [hfst]; exact hpq, hss⟩
  · intro p' hp' hss
    rw [doUninstall_nodes] at hp'
    rw [doUninstall_liveWorkers]
    rcases mem_stabilize_ss p' hp' hss with ⟨p, hp, hfst, hps⟩
    have hpmem : p ∈ g.nodes := (List.mem_filter.mp hp).1
    rcases hInv.lwTotal p hpmem hps with ⟨w, hw⟩
    refine ⟨w, ?_⟩
    rw [hfst]
    exact hw
  · rw [doUninstall_nodes]
    exact inputsStarted_stabilize _
  · rw [doUninstall_nodes]
    apply startedOutput_stabilize
    intro p hp hps
    exact hInv.startedOutput p (List.mem_filter.mp hp).1 hps
  · intro hne
    rw [doUninstall_phase, hph] at hne
    exact absurd rfl hne
  · intro r hr
    rw [doUninstall_phase, hph] at hr
    cases hr

theorem inv_doneFatal {g : Engine} {n : String} {e : EngErr}
    (hInv : Inv g) : Inv (doDoneFatal g n e) := by
  have hnost : ∀ p ∈ (doDoneFatal g n e).nodes, p.2.state ≠ .started := by
    rw [doDoneFatal_nodes]
    exact demoteAllStarted_no_started
  constructor
  · rw [doDoneFatal_nodes, keys_demoteAllStarted, keys_setNode]
    exact hInv.keysNodup
  · rw [doDoneFatal_liveWorkers]
    exact removeWorker_keys_nodup hInv.lwNodup
  · intro q hq
    rw [doDoneFatal_liveWorkers] at hq
    rw [doDoneFatal_nodes]
    rcases mem_removeWorker.mp hq with ⟨hql, hqn⟩
    rcases hInv.lwDom q hql with ⟨p, hp, hpq, hps⟩
    have hpn : p.1 ≠ n := by rw [hpq]; exact hqn
    have hpmem : p ∈ setNode g.nodes n (fun nd =>
        { nd with state := .stopped, lastError := some e }) :=
      mem_setNode.mpr ⟨p, hp, by rw [if_neg hpn]⟩
    refine ⟨_, mem_demoteAllStarted.mpr ⟨p, hpmem, rfl⟩, ?_, ?_⟩
    · by_cases hs : p.2.state = .started
      · rw [if_pos hs]; exact hpq
      · rw [if_neg hs]; exact hpq
    · by_cases hs : p.2.state = .started
      · rw [if_pos hs]; exact Or.inr rfl
      · rw [if_neg hs]; exact hps
  · intro p'' hp'' hss
    rw [doDoneFatal_nodes] at hp''
    rw [doDoneFatal_liveWorkers]
    rcases mem_demoteAllStarted.mp hp'' with ⟨p', hp', hcond⟩
    have hback : p''.1 = p'.1 ∧
        (p'.2.state = .started ∨ p'.2.state = .stopping) := by
      by_cases hs : p'.2.state = .started
      · rw [if_pos hs] at hcond
        exact ⟨by rw [hcond], Or.inl hs⟩
      · rw [if_neg hs] at hcond
        exact ⟨by rw [hcond], by rw [← hcond]; exact hss⟩
    rcases mem_setNode.mp hp' with ⟨q, hq, hcond2⟩
    by_cases hqn : q.1 = n
    · rw [if_pos hqn] at hcond2
      rw [hcond2] at hback
      rcases hback.2 with h | h <;> cases h
    · rw [if_neg hqn] at hcond2
      rw [hcond2] at hback
      rcases hInv.lwTotal q hq hback.2 with ⟨w, hw⟩
      refine ⟨w, mem_removeWorker.mpr ⟨?_, ?_⟩⟩
      · rw [hback.1]; exact hw
      · rw [hback.1]; exact hqn
  · intro p hp hps
    exact absurd hps (hnost p hp)
  · intro p hp hps
    exact absurd hps (hnost p hp)
  · intro _
    exact hnost
  · intro r hr
    rw [doDoneFatal_phase] at hr
    cases hr

theorem inv_requestStop {g : Engine} (hInv : Inv g) :
    Inv (doRequestStop g) := by
  have hnost : ∀ p ∈ (doRequestStop g).nodes, p.2.state ≠ .started := by
    rw [doRequestStop_nodes]
    exact demoteAllStarted_no_started
  constructor
  · rw [doRequestStop_nodes, keys_demoteAllStarted]
    exact hInv.keysNodup
  · rw [doRequestStop_liveWorkers]
    exact hInv.lwNodup
  · intro q hq
    rw [doRequestStop_liveWorkers] at hq
    rw [doRequestStop_nodes]
    rcases hInv.lwDom q hq with ⟨p, hp, hpq, hps⟩
    refine ⟨_, mem_demoteAllStarted.mpr ⟨p, hp, rfl⟩, ?_, ?_⟩
    · by_cases hs : p.2.state = .started
      · rw [if_pos hs]; exact hpq
      · rw [if_neg hs]; exact hpq
    · by_cases hs : p.2.state = .started
      · rw [if_pos hs]; exact Or.inr rfl
      · rw [if_neg hs]; exact hps
  · intro p'' hp'' hss
    rw [doRequestStop_nodes] at hp''
    rw [doRequestStop_liveWorkers]
    rcases mem_demoteAllStarted.mp hp'' with ⟨p, hp, hcond⟩
    have hback : p''.1 = p.1 ∧
        (p.2.state = .started ∨ p.2.state = .stopping) := by
      by_cases hs : p.2.state = .started
      · rw [if_pos hs] at hcond
        exact ⟨by rw [hcond], Or.inl hs⟩
      · rw [if_neg hs] at hcond
        exact ⟨by rw [hcond], by rw [← hcond]; exact hss⟩
    rcases hInv.lwTotal p hp hback.2 with ⟨w, hw⟩
    refine ⟨w, ?_⟩
    rw [hback.1]
    exact hw
  · intro p hp hps
    exact absurd hps (hnost p hp)
  · intro p hp hps
    exact absurd hps (hnost p hp)
  · intro _
    exact hnost
  · intro r hr
    rw [doRequestStop_phase] at hr
    cases hr

theorem doShutdownDone_phase (g : Engine) (n : String) (nd : Node)
    (e : Option EngErr) :
    (doShutdownDone g n nd e).phase =
      (match g.phase with
        | .stoppingAll (some x) => .stoppingAll (some x)
        | .stoppingAll none =>
          match e with
          | some err =>
            if nd.manifold.filter err = .fatal then Phase.stoppingAll (some err)
            else .stoppingAll none
          | none => .stoppingAll none
        | ph => ph) := rfl

theorem shutdownDone_phase_shape {g : Engine} {n : String} {nd : Node}
    {e : Option EngErr} {f : Option EngErr}
    (hph : g.phase = .stoppingAll f) :
    ∃ f', (doShutdownDone g n nd e).phase = .stoppingAll f' := by
  rw [doShutdownDone_phase, hph]
  cases f with
  | some x => exact ⟨some x, rfl⟩
  | none =>
    cases e with
    | none => exact ⟨none, rfl⟩
    | some err =>
      by_cases hcl : nd.manifold.filter err = .fatal
      · exact ⟨some err, by simp [hcl]⟩
      · exact ⟨none, by simp [hcl]⟩

theorem inv_shutdownDone {g : Engine} {n : String} {nd : Node}
    {e : Option EngErr} {f : Option EngErr}
    (hInv : Inv g) (hph : g.phase = .stoppingAll f) :
    Inv (doShutdownDone g n nd e) := by
  have hgnost : ∀ p ∈ g.nodes, p.2.state ≠ .started := by
    apply hInv.phaseStarted
    rw [hph]
    intro h
    cases h
  have hnost : ∀ p ∈ (doShutdownDone g n nd e).nodes,
      p.2.state ≠ .started := by
    rw [doShutdownDone_nodes]
    intro p' hp' hps
    rcases mem_setNode.mp hp' with ⟨q, hq, hcond⟩
    by_cases hqn : q.1 = n
    · rw [if_pos hqn] at hcond
      rw [hcond] at hps
      cases hps
    · rw [if_neg hqn] at hcond
      exact hgnost q hq (by rw [← hcond]; exact hps)
  constructor
  · rw [doShutdownDone_nodes, keys_setNode]
    exact hInv.keysNodup
  · rw [doShutdownDone_liveWorkers]
    exact removeWorker_keys_nodup hInv.lwNodup
  · intro q hq
    rw [doShutdownDone_liveWorkers] at hq
    rw [doShutdownDone_nodes]
    rcases mem_removeWorker.mp hq with ⟨hql, hqn⟩
    rcases hInv.lwDom q hql with ⟨p, hp, hpq, hps⟩
    have hpn : p.1 ≠ n := by rw [hpq]; exact hqn
    refine ⟨p, mem_setNode.mpr ⟨p, hp, by rw [if_neg hpn]⟩, hpq, hps⟩
  · intro p' hp' hss
    rw [doShutdownDone_nodes] at hp'
    rw [doShutdownDone_liveWorkers]
    rcases mem_setNode.mp hp' with ⟨q, hq, hcond⟩
    by_cases hqn : q.1 = n
    · rw [if_pos hqn] at hcond
      rw [hcond] at hss
      rcases hss with h | h <;> cases h
    · rw [if_neg hqn] at hcond
      rcases hInv.lwTotal q hq (by rw [← hcond]; exact hss) with ⟨w, hw⟩
      refine ⟨w, mem_removeWorker.mpr ⟨?_, ?_⟩⟩
      · rw [hcond]; exact hw
      · rw [hcond]; exact hqn
  · intro p hp hps
    exact absurd hps (hnost p hp)
  · intro p hp hps
    exact absurd hps (hnost p hp)
  · intro _
    exact hnost
  · intro r hr
    rcases @shutdownDone_phase_shape g n nd e f hph with ⟨f', hf'⟩
    rw [hf'] at hr
    cases hr

theorem doOutputChange_none {g : Engine} {n : String} {v : Value} {nd : Node}
    (hc : nd.outputCache = none) : doOutputChange g n v nd = g := by
  unfold doOutputChange
  rw [hc]

theorem doOutputChange_some {g : Engine} {n : String} {v : Value} {nd : Node}
    {old : Value} (hc : nd.outputCache = some old) :
    doOutputChange g n v nd =
      if nd.manifold.eqOut old v = true then g
      else { g with nodes := stabilize (demoteDependentsOf
        (setNode g.nodes n (fun m => { m with outputCache := some v })) n) } := by
  unfold doOutputChange
  rw [hc]

theorem inv_outputChanged {g : Engine} {n : String} {nd : Node} {v : Value}
    (hInv : Inv g) (hph : g.phase = .running) (_hmem : (n, nd) ∈ g.nodes)
    (_hst : nd.state = .started) :
    Inv (doOutputChange g n v nd) := by
  rcases hc : nd.outputCache with _ | old
  · rw [doOutputChange_none (g := g) (v := v) hc]
    exact hInv
  · rw [doOutputChange_some (g := g) (v := v) hc]
    by_cases he : nd.manifold.eqOut old v = true
    · rw [if_pos he]
      exact hInv
    · rw [if_neg he]
      constructor
      · show ((stabilize (demoteDependentsOf (setNode g.nodes n _) n)).map
          Prod.fst).Nodup
        rw [keys_stabilize, keys_demoteDependentsOf, keys_setNode]
        exact hInv.keysNodup
      · exact hInv.lwNodup
      · intro q hq
        rcases hInv.lwDom q hq with ⟨p, hp, hpq, hps⟩
        have h1 : (if p.1 = n then (p.1, { p.2 with outputCache := some v })
            else p) ∈ setNode g.nodes n
              (fun m => { m with outputCache := some v }) :=
          mem_setNode.mpr ⟨p, hp, rfl⟩
        have h1k : (if p.1 = n then (p.1, { p.2 with outputCache := some v })
            else p).1 = p.1 := by
          by_cases hpn : p.1 = n
          · rw [if_pos hpn]
          · rw [if_neg hpn]
        have h1s : ((if p.1 = n then (p.1, { p.2 with outputCache := some v })
            else p) : String × Node).2.state = p.2.state := by
          by_cases hpn : p.1 = n
          · rw [if_pos hpn]
          · rw [if_neg hpn]
        set p1 : String × Node :=
          if p.1 = n then (p.1, { p.2 with outputCache := some v }) else p
          with hp1
        have h2 : (if p1.2.state = .started &&
              decide (n ∈ p1.2.manifold.inputs) && decide (p1.1 ≠ n)
            then (p1.1, { p1.2 with state := .stopping }) else p1) ∈
            demoteDependentsOf (setNode g.nodes n
              (fun m => { m with outputCache := some v })) n :=
          mem_demoteDependentsOf.mpr ⟨p1, h1, rfl⟩
        set cond := p1.2.state = NodeState.started &&
          decide (n ∈ p1.2.manifold.inputs) && decide (p1.1 ≠ n) with hcond
        have h2k : ((if cond then (p1.1, { p1.2 with state := .stopping })
            else p1) : String × Node).1 = p1.1 := by
          by_cases hcnd : cond = true
          · rw [if_pos hcnd]
          · rw [if_neg hcnd]
        have h2s : (((if cond then (p1.1, { p1.2 with state := .stopping })
            else p1) : String × Node).2.state = .started ∨
            ((if cond then (p1.1, { p1.2 with state := .stopping })
            else p1) : String × Node).2.state = .stopping) := by
          by_cases hcnd : cond = true
          · rw [if_pos hcnd]; exact Or.inr rfl
          · rw [if_neg hcnd]
            rw [h1s]
            exact hps
        rcases stabilize_surj_ss _ h2 h2s with ⟨p', hp', hfst, hss⟩
        refine ⟨p', hp', ?_, hss⟩
        rw [hfst, h2k, h1k]
        exact hpq
      · intro p''' hp''' hss
        rcases mem_stabilize_ss p''' hp''' hss with ⟨p'', hp'', hfst, hps''⟩
        rcases mem_demoteDependentsOf.mp hp'' with ⟨p', hp', hcond⟩
        have hback : p''.1 = p'.1 ∧
            (p'.2.state = .started ∨ p'.2.state = .stopping) := by
          by_cases hcnd : (p'.2.state = NodeState.started &&
              decide (n ∈ p'.2.manifold.inputs) && decide (p'.1 ≠ n)) = true
          · rw [if_pos hcnd] at hcond
            simp only [Bool.and_eq_true, decide_eq_true_eq] at hcnd
            exact ⟨by rw [hcond], Or.inl hcnd.1.1⟩
          · rw [if_neg hcnd] at hcond
            exact ⟨by rw [hcond], by rw [← hcond]; exact hps''⟩
        rcases mem_setNode.mp hp' with ⟨q, hq, hcond2⟩
        by_cases hqn : q.1 = n
        · rw [if_pos hqn] at hcond2
          have hqs : (q.2.state = .started ∨ q.2.state = .stopping) := by
            rw [hcond2] at hback
            exact hback.2
          rcases hInv.lwTotal q hq hqs with ⟨w, hw⟩
          refine ⟨w, ?_⟩
          rw [hfst, hback.1, hcond2]
          exact hw
        · rw [if_neg hqn] at hcond2
          rw [hcond2] at hback
          rcases hInv.lwTotal q hq hback.2 with ⟨w, hw⟩
          refine ⟨w, ?_⟩
          rw [hfst, hback.1]
          exact hw
      · exact inputsStarted_stabilize _
      · apply startedOutput_stabilize
        intro p'' hp'' hps''
        rcases mem_demoteDependentsOf.mp hp'' with ⟨p', hp', hcond⟩
        by_cases hcnd : (p'.2.state = NodeState.started &&
            decide (n ∈ p'.2.manifold.inputs) && decide (p'.1 ≠ n)) = true
        · rw [if_pos hcnd] at hcond
          rw [hcond] at hps''
          cases hps''
        · rw [if_neg hcnd] at hcond
          rcases mem_setNode.mp hp' with ⟨q, hq, hcond2⟩
          by_cases hqn : q.1 = n
          · rw [if_pos hqn] at hcond2
            rw [hcond, hcond2]
            rfl
          · rw [if_neg hqn] at hcond2
            rw [hcond, hcond2]
            rw [hcond, hcond2] at hps''
            exact hInv.startedOutput q hq hps''
      · intro hne
        exact absurd hph hne
      · intro r hr
        have hr2 : g.phase = Phase.done r := hr
        rw [hph] at hr2
        cases hr2

theorem inv_finishStop {g : Engine} {f : Option EngErr}
    (hInv : Inv g) (hph : g.phase = .stoppingAll f)
    (hlw : g.liveWorkers = []) : Inv (doFinishStop g) := by
  constructor
  · rw [doFinishStop_nodes]
    exact hInv.keysNodup
  · rw [doFinishStop_liveWorkers]
    exact hInv.lwNodup
  · intro q hq
    rw [doFinishStop_liveWorkers] at hq
    rw [doFinishStop_nodes]
    exact hInv.lwDom q hq
  · intro p hp hss
    rw [doFinishStop_nodes] at hp
    rw [doFinishStop_liveWorkers]
    exact hInv.lwTotal p hp hss
  · intro p hp hps
    rw [doFinishStop_nodes] at hp ⊢
    exact hInv.inputsStarted p hp hps
  · intro p hp hps
    rw [doFinishStop_nodes] at hp
    exact hInv.startedOutput p hp hps
  · intro _
    rw [doFinishStop_nodes]
    apply hInv.phaseStarted
    rw [hph]
    intro h
    cases h
  · intro r _
    rw [doFinishStop_liveWorkers]
    exact hlw

theorem inv_tick {g : Engine} (hInv : Inv g) : Inv (doTick g) := by
  constructor
  · rw [doTick_nodes]; exact hInv.keysNodup
  · rw [doTick_liveWorkers]; exact hInv.lwNodup
  · intro q hq
    rw [doTick_liveWorkers] at hq
    rw [doTick_nodes]
    exact hInv.lwDom q hq
  · intro p hp hss
    rw [doTick_nodes] at hp
    rw [doTick_liveWorkers]
    exact hInv.lwTotal p hp hss
  · intro p hp hps
    rw [doTick_nodes] at hp ⊢
    exact hInv.inputsStarted p hp hps
  · intro p hp hps
    rw [doTick_nodes] at hp
    exact hInv.startedOutput p hp hps
  · intro hne
    rw [doTick_nodes]
    apply hInv.phaseStarted
    rw [← doTick_phase]
    exact hne
  · intro r hr
    rw [doTick_liveWorkers]
    exact hInv.doneDrained r (by rw [← doTick_phase]; exact hr)

/-- Every step of the resolution loop preserves the engine-wide
invariant. -/
theorem inv_step {g : Engine} {a : Act} {g' : Engine}
    (hInv : Inv g) (hs : Step g a g') : Inv g' := by
  cases hs with
  | install hph hok => exact inv_install hInv hph hok
  | startOk hph hmem hst hall => exact inv_startOk hInv hph hmem hst hall
  | startFail hph hmem hst hall => exact inv_startFail hInv hph hmem hst
  | stopComplete hph hmem hst => exact inv_stopComplete hInv hph
  | workerStopped hph hmem hst hfil => exact inv_stopComplete hInv hph
  | workerErred hph hmem hst hfil => exact inv_doneErr hInv hph
  | workerFatal hph hmem hst hfil => exact inv_doneFatal hInv
  | shutdownDone hph hmem hst => exact inv_shutdownDone hInv hph
  | outputChanged hph hmem hst hout => exact inv_outputChanged hInv hph hmem hst
  | stopNode hph hmem hst => exact inv_stopNode hInv hph hmem hst
  | uninstall hph hmem hst => exact inv_uninstall hInv hph hmem hst
  | requestStop hph => exact inv_requestStop hInv
  | finishStop hph hlw => exact inv_finishStop hInv hph hlw
  | tick => exact inv_tick hInv

/-- Every reachable engine state satisfies the engine-wide invariant. -/
theorem reachable_inv {g : Engine} (h : Reachable g) : Inv g := by
  induction h with
  | init => exact Inv.init
  | step _ hs ih => exact inv_step ih hs

/-! ### Observation lemmas -/

theorem stateOf_eq_some_of_mem {g : Engine} {a : String} {nd : Node}
    (hk : (g.nodes.map Prod.fst).Nodup) (hmem : (a, nd) ∈ g.nodes) :
    stateOf g a = some nd.state := by
  unfold stateOf
  rcases hfind : g.nodes.find? (fun p => decide (p.1 = a)) with _ | q
  · exfalso
    have := List.find?_eq_none.mp hfind (a, nd) hmem
    simp at this
  · have hqa : q.1 = a := by
      have := List.find?_some hfind
      simpa using this
    have hqmem : (a, q.2) ∈ g.nodes := by
      have he : q = (a, q.2) := by
        rw [Prod.ext_iff]; exact ⟨hqa, rfl⟩
      rw [← he]
      exact List.mem_of_find?_eq_some hfind
    have : q.2 = nd := nodup_keys_unique hk hqmem hmem
    rw [hfind]
    simp [this]

theorem stateOf_some_elim {g : Engine} {a : String} {s : NodeState}
    (h : stateOf g a = some s) : ∃ nd, (a, nd) ∈ g.nodes ∧ nd.state = s := by
  unfold stateOf at h
  rcases hfind : g.nodes.find? (fun p => decide (p.1 = a)) with _ | q
  · rw [hfind] at h; cases h
  · rw [hfind] at h
    simp at h
    have hqa : q.1 = a := by
      have := List.find?_some hfind
      simpa using this
    refine ⟨q.2, ?_, h⟩
    have he : q = (a, q.2) := by
      rw [Prod.ext_iff]; exact ⟨hqa, rfl⟩
    rw [← he]
    exact List.mem_of_find?_eq_some hfind

theorem inputsOf_some_elim {g : Engine} {a : String} {ins : List String}
    (h : inputsOf g a = some ins) :
    ∃ nd, (a, nd) ∈ g.nodes ∧ nd.manifold.inputs = ins := by
  unfold inputsOf at h
  rcases hfind : g.nodes.find? (fun p => decide (p.1 = a)) with _ | q
  · rw [hfind] at h; cases h
  · rw [hfind] at h
    simp at h
    have hqa : q.1 = a := by
      have := List.find?_some hfind
      simpa using this
    refine ⟨q.2, ?_, h⟩
    have he : q = (a, q.2) := by
      rw [Prod.ext_iff]; exact ⟨hqa, rfl⟩
    rw [← he]
    exact List.mem_of_find?_eq_some hfind

theorem outputOf_eq_of_mem {g : Engine} {a : String} {nd : Node}
    (hk : (g.nodes.map Prod.fst).Nodup) (hmem : (a, nd) ∈ g.nodes) :
    outputOf g a = nd.outputCache := by
  unfold outputOf
  rcases hfind : g.nodes.find? (fun p => decide (p.1 = a)) with _ | q
  · exfalso
    have := List.find?_eq_none.mp hfind (a, nd) hmem
    simp at this
  · have hqa : q.1 = a := by
      have := List.find?_some hfind
      simpa using this
    have hqmem : (a, q.2) ∈ g.nodes := by
      have he : q = (a, q.2) := by
        rw [Prod.ext_iff]; exact ⟨hqa, rfl⟩
      rw [← he]
      exact List.mem_of_find?_eq_some hfind
    have : q.2 = nd := nodup_keys_unique hk hqmem hmem
    rw [hfind]
    simp [this]

theorem stateOf_started_of_isStarted {g : Engine} {a : String}
    (hk : (g.nodes.map Prod.fst).Nodup) (h : isStarted g.nodes a = true) :
    stateOf g a = some .started := by
  rcases isStarted_iff.mp h with ⟨p, hp, hpa, hps⟩
  have hmem : (a, p.2) ∈ g.nodes := by
    have he : p = (a, p.2) := by
      rw [Prod.ext_iff]; exact ⟨hpa, rfl⟩
    rw [← he]; exact hp
  rw [stateOf_eq_some_of_mem hk hmem, hps]

theorem filter_key_len_le_one {n : String} :
    ∀ {lw : List (String × Nat)}, (lw.map Prod.fst).Nodup →
      (lw.filter (fun q => decide (q.1 = n))).length ≤ 1 := by
  intro lw
  induction lw with
  | nil => intro _; simp
  | cons q rest ih =>
    intro h
    rw [List.map_cons, List.nodup_cons] at h
    rw [List.filter_cons]
    by_cases hq : q.1 = n
    · rw [if_pos (by simpa using hq)]
      have hempty : rest.filter (fun q' => decide (q'.1 = n)) = [] := by
        apply List.filter_eq_nil_iff.mpr
        intro q' hq' hcontra
        apply h.1
        have hq'n : q'.1 = n := by simpa using hcontra
        rw [hq, ← hq'n]
        exact List.mem_map_of_mem Prod.fst hq'
      rw [hempty]
      simp
    · rw [if_neg (by simpa using hq)]
      exact ih h.2

theorem workersFor_le_one {g : Engine} {n : String}
    (h : (g.liveWorkers.map Prod.fst).Nodup) : workersFor g n ≤ 1 :=
  filter_key_len_le_one h

theorem workersFor_pos_of_mem {g : Engine} {n : String} {w : Nat}
    (h : (n, w) ∈ g.liveWorkers) : 1 ≤ workersFor g n := by
  unfold workersFor
  have hmem : (n, w) ∈ g.liveWorkers.filter (fun q => decide (q.1 = n)) :=
    List.mem_filter.mpr ⟨h, by simp⟩
  have : g.liveWorkers.filter (fun q => decide (q.1 = n)) ≠ [] :=
    List.ne_nil_of_mem hmem
  have := List.length_pos.mpr this
  omega

theorem workersFor_eq_zero {g : Engine} {n : String}
    (h : ∀ w, (n, w) ∉ g.liveWorkers) : workersFor g n = 0 := by
  unfold workersFor
  rw [List.filter_eq_nil_iff.mpr]
  · rfl
  · intro q hq hcontra
    have hqn : q.1 = n := by simpa using hcontra
    apply h q.2
    have he : q = (n, q.2) := by
      rw [Prod.ext_iff]; exact ⟨hqn, rfl⟩
    rw [← he]
    exact hq

/-! ### A concrete run of the engine (test vectors for the claims) -/

theorem e1_step : Step Engine.init (.install mA) e1 :=
  Step.install rfl rfl

theorem e2_step : Step e1 (.startOk "a" vA) e2 :=
  Step.startOk rfl (List.mem_cons_self _ _) (Or.inl rfl) rfl

theorem e3_step : Step e2 (.install mB) e3 :=
  Step.install rfl rfl

theorem e4_step : Step e3 (.startOk "b" ⟨2, 2⟩) e4 :=
  Step.startOk rfl (List.mem_append_right _ (List.mem_cons_self _ _))
    (Or.inl rfl) rfl

theorem e4_reachable : Reachable e4 :=
  Reachable.step (Reachable.step (Reachable.step
    (Reachable.step Reachable.init e1_step) e2_step) e3_step) e4_step

theorem f1_step : Step Engine.init (.install mF) f1 :=
  Step.install rfl rfl

theorem f2_step : Step f1 (.startOk "f" vA) f2 :=
  Step.startOk rfl (List.mem_cons_self _ _) (Or.inl rfl) rfl

theorem f2_reachable : Reachable f2 :=
  Reachable.step (Reachable.step Reachable.init f1_step) f2_step

theorem f3_step : Step f2 (.workerFatal "f" (.other 7)) f3 :=
  Step.workerFatal rfl (List.mem_cons_self _ _) rfl rfl

/-! ### Snapshot characterisation -/

theorem mem_snapshotOutputs {g : Engine} {q : String × Value} :
    q ∈ snapshotOutputs g ↔
      ∃ p ∈ g.nodes, p.2.state = .started ∧ p.2.outputCache = some q.2 ∧
        p.1 = q.1 := by
  unfold snapshotOutputs
  rw [List.mem_filterMap]
  constructor
  · rintro ⟨p, hp, hf⟩
    by_cases hs : p.2.state = .started
    · rw [if_pos hs] at hf
      rcases Option.map_eq_some'.mp hf with ⟨v, hv, hpv⟩
      refine ⟨p, hp, hs, ?_, ?_⟩
      · rw [hv, ← hpv]
      · rw [← hpv]
    · rw [if_neg hs] at hf
      cases hf
  · rintro ⟨p, hp, hs, hc, hk⟩
    refine ⟨p, hp, ?_⟩
    rw [if_pos hs, hc]
    have he : (p.1, q.2) = q := by
      rw [Prod.ext_iff]; exact ⟨hk, rfl⟩
    simp [he]

theorem snapshot_entry_started {g : Engine} {q : String × Value}
    (hk : (g.nodes.map Prod.fst).Nodup) (hq : q ∈ snapshotOutputs g) :
    stateOf g q.1 = some .started ∧ outputOf g q.1 = some q.2 := by
  rcases mem_snapshotOutputs.mp hq with ⟨p, hp, hs, hc, hkey⟩
  have hmem : (q.1, p.2) ∈ g.nodes := by
    have he : p = (q.1, p.2) := by
      rw [Prod.ext_iff]; exact ⟨hkey, rfl⟩
    rw [← he]; exact hp
  constructor
  · rw [stateOf_eq_some_of_mem hk hmem, hs]
  · rw [outputOf_eq_of_mem hk hmem, hc]

theorem started_mem_snapshot {g : Engine} {name : String} {nd : Node}
    (hInv : Inv g) (hmem : (name, nd) ∈ g.nodes)
    (hst : nd.state = .started) :
    ∃ v, nd.outputCache = some v ∧ (name, v) ∈ snapshotOutputs g := by
  have hsome := hInv.startedOutput (name, nd) hmem hst
  rcases Option.isSome_iff_exists.mp hsome with ⟨v, hv⟩
  exact ⟨v, hv, mem_snapshotOutputs.mpr ⟨(name, nd), hmem, hst, hv, rfl⟩⟩

/-! ### The claims about the engine -/

/-- Claim C1: for every engine and every reachable state of its graph,
no installed node is ever observed in state `started` while any of
its declared inputs is not in state `started`; a node is `started`
only while its worker is alive (at least one live worker instance)
and every input is `started`. -/
theorem c1_started_only_with_started_inputs {g : Engine}
    (hg : Reachable g) (b : String) (ins : List String)
    (hb : stateOf g b = some .started) (hins : inputsOf g b = some ins) :
    1 ≤ workersFor g b ∧ ∀ a ∈ ins, stateOf g a = some .started := by
  have hInv := reachable_inv hg
  rcases stateOf_some_elim hb with ⟨nd, hmem, hst⟩
  rcases inputsOf_some_elim hins with ⟨nd2, hmem2, hins2⟩
  have hnd : nd2 = nd := nodup_keys_unique hInv.keysNodup hmem2 hmem
  rw [hnd] at hins2
  constructor
  · rcases hInv.lwTotal (b, nd) hmem (Or.inl hst) with ⟨w, hw⟩
    exact workersFor_pos_of_mem hw
  · intro a ha
    have hall := hInv.inputsStarted (b, nd) hmem hst
    rw [allInputsStarted_iff] at hall
    exact stateOf_started_of_isStarted hInv.keysNodup
      (hall a (by rw [hins2]; exact ha))

/-- Witness for C1 at a concrete reachable engine: in `e4`, node
`"b"` is `started` with input list `["a"]`, its worker is alive, and
its input `"a"` is `started`. -/
theorem c1_witness :
    1 ≤ workersFor e4 "b" ∧ ∀ a ∈ ["a"], stateOf e4 a = some .started :=
  c1_started_only_with_started_inputs e4_reachable "b" ["a"]
    (by decide) (by decide)

/-- Claim C2: in every reachable engine state at most one live worker
instance exists per node, and a new worker for a node can only be
started (a `startOk` step is only enabled) while the node has no live
worker, i.e. after the previous worker has fully terminated. -/
theorem c2_at_most_one_worker {g : Engine} (hg : Reachable g) :
    (∀ n, workersFor g n ≤ 1) ∧
    (∀ n out g', Step g (.startOk n out) g' → workersFor g n = 0) := by
  have hInv := reachable_inv hg
  constructor
  · intro n
    exact workersFor_le_one hInv.lwNodup
  · intro n out g' hstep
    cases hstep with
    | startOk hph hmem hst hall =>
      apply workersFor_eq_zero
      intro w hw
      rcases hInv.lwDom (n, w) hw with ⟨p, hp, hpq, hps⟩
      have hmem' : (n, p.2) ∈ g.nodes := by
        have he : p = (n, p.2) := by
          rw [Prod.ext_iff]; exact ⟨hpq, rfl⟩
        rw [← he]; exact hp
      have hund : p.2 = _ := nodup_keys_unique hInv.keysNodup hmem' hmem
      rw [hund] at hps
      rcases hst with h | h
      · rw [h] at hps; rcases hps with hc | hc <;> cases hc
      · rw [h.1] at hps; rcases hps with hc | hc <;> cases hc

/-- Witness for C2 at a concrete reachable engine: in `e4` each of
the two installed nodes has at most one worker, and the `startOk`
step that started `"b"` was taken from a state with no worker for
`"b"`. -/
theorem c2_witness :
    workersFor e4 "a" ≤ 1 ∧ workersFor e4 "b" ≤ 1 ∧ workersFor e3 "b" = 0 :=
  ⟨(c2_at_most_one_worker e4_reachable).1 "a",
   (c2_at_most_one_worker e4_reachable).1 "b",
   (c2_at_most_one_worker (Reachable.step (Reachable.step
      (Reachable.step Reachable.init e1_step) e2_step) e3_step)).2
     "b" ⟨2, 2⟩ e4 e4_step⟩

theorem contextGet_notfound {g : Engine} {name : String} {tag : Nat}
    (hfind : (snapshotOutputs g).find? (fun q => decide (q.1 = name)) = none) :
    contextGet g name tag = .error .missing := by
  unfold contextGet
  rw [hfind]

theorem contextGet_found {g : Engine} {name : String} {tag : Nat}
    {q : String × Value}
    (hfind : (snapshotOutputs g).find? (fun q => decide (q.1 = name)) = some q) :
    contextGet g name tag =
      if q.2.tag = tag then .ok q.2 else .error .typeMismatch := by
  unfold contextGet
  rw [hfind]

/-- Claim C3: in every reachable state, `Context.Get(name, tag)` fails
with `ErrMissing` exactly when the named dependency is not currently
`started`; fails with `ErrTypeMismatch` exactly when the dependency
is `started` but its stored output's type tag differs from the
target's; and otherwise copies the currently published output. -/
theorem c3_get_contract {g : Engine} (hg : Reachable g)
    (name : String) (tag : Nat) :
    (contextGet g name tag = .error .missing ↔
      stateOf g name ≠ some .started) ∧
    (contextGet g name tag = .error .typeMismatch ↔
      (stateOf g name = some .started ∧
        ∃ v, outputOf g name = some v ∧ v.tag ≠ tag)) ∧
    (∀ v, stateOf g name = some .started → outputOf g name = some v →
      v.tag = tag → contextGet g name tag = .ok v) := by
  have hInv := reachable_inv hg
  have hnotfound : ∀ hfind : (snapshotOutputs g).find?
      (fun q => decide (q.1 = name)) = none,
      stateOf g name ≠ some .started := by
    intro hfind hcontra
    rcases stateOf_some_elim hcontra with ⟨nd, hmem, hst⟩
    rcases started_mem_snapshot hInv hmem hst with ⟨v, _, hvmem⟩
    have := List.find?_eq_none.mp hfind (name, v) hvmem
    simp at this
  rcases hfind : (snapshotOutputs g).find? (fun q => decide (q.1 = name))
    with _ | q
  · have hmiss := hnotfound hfind
    refine ⟨⟨fun _ => hmiss, fun _ => contextGet_notfound hfind⟩,
      ⟨?_, ?_⟩, ?_⟩
    · intro h
      rw [contextGet_notfound hfind] at h
      exact absurd (by injection h) (by intro hc; cases hc)
    · rintro ⟨hstart, _⟩
      exact absurd hstart hmiss
    · intro v hstart _ _
      exact absurd hstart hmiss
  · have hqmem := List.mem_of_find?_eq_some hfind
    have hqkey : q.1 = name := by
      have := List.find?_some hfind
      simpa using this
    have hstarted : stateOf g name = some .started ∧
        outputOf g name = some q.2 := by
      rw [← hqkey]
      exact snapshot_entry_started hInv.keysNodup hqmem
    refine ⟨⟨?_, ?_⟩, ⟨?_, ?_⟩, ?_⟩
    · intro h
      rw [contextGet_found hfind] at h
      by_cases ht : q.2.tag = tag
      · rw [if_pos ht] at h; cases h
      · rw [if_neg ht] at h
        exact absurd (by injection h) (by intro hc; cases hc)
    · intro hne
      exact absurd hstarted.1 hne
    · intro h
      rw [contextGet_found hfind] at h
      by_cases ht : q.2.tag = tag
      · rw [if_pos ht] at h; cases h
      · exact ⟨hstarted.1, q.2, hstarted.2, ht⟩
    · rintro ⟨_, v, hv, hvt⟩
      have hvq : v = q.2 := by
        rw [hstarted.2] at hv
        injection hv with hv
        rw [hv]
      rw [contextGet_found hfind, if_neg (by rw [← hvq]; exact hvt)]
    · intro v hstart hout htag
      have hvq : v = q.2 := by
        rw [hstarted.2] at hout
        injection hout with hout
        rw [hout]
      rw [contextGet_found hfind, if_pos (by rw [← hvq]; exact htag)]
      rw [hvq]

/-- Witness for C3 at a concrete reachable engine: in `e4`, a `Get`
of an uninstalled name yields `ErrMissing`, a `Get` of started
`"a"` with the wrong type tag yields `ErrTypeMismatch`, and a `Get`
of `"a"` with the right tag copies the published output `vA`. -/
theorem c3_witness :
    contextGet e4 "zzz" 1 = .error .missing ∧
    contextGet e4 "a" 2 = .error .typeMismatch ∧
    contextGet e4 "a" 1 = .ok vA :=
  ⟨(c3_get_contract e4_reachable "zzz" 1).1.mpr (by decide),
   (c3_get_contract e4_reachable "a" 2).2.1.mpr
     ⟨by decide, vA, by decide, by decide⟩,
   (c3_get_contract e4_reachable "a" 1).2.2 vA (by decide) (by decide) rfl⟩

theorem doFinishStop_phase (g : Engine) :
    (doFinishStop g).phase =
      (match g.phase with
        | .stoppingAll f => .done f
        | ph => ph) := rfl

theorem fatal_step_elim {g : Engine} {n : String} {e : EngErr} {g' : Engine}
    (hstep : Step g (.workerFatal n e) g') :
    g'.phase = .stoppingAll (some e) ∧
      ∀ p ∈ g'.nodes, p.2.state ≠ .started := by
  cases hstep with
  | workerFatal hph _ _ hfil =>
    refine ⟨rfl, ?_⟩
    rw [doDoneFatal_nodes]
    exact demoteAllStarted_no_started

theorem stoppingAll_persist {g : Engine} {a : Act} {g' : Engine} {e : EngErr}
    (hstep : Step g a g') (hph : g.phase = .stoppingAll (some e)) :
    g'.phase = .stoppingAll (some e) ∨ g'.phase = .done (some e) := by
  cases hstep with
  | install hph2 hok => rw [hph] at hph2; cases hph2
  | startOk hph2 hmem hst hall => rw [hph] at hph2; cases hph2
  | startFail hph2 hmem hst hall => rw [hph] at hph2; cases hph2
  | stopComplete hph2 hmem hst => rw [hph] at hph2; cases hph2
  | workerStopped hph2 hmem hst hfil => rw [hph] at hph2; cases hph2
  | workerErred hph2 hmem hst hfil => rw [hph] at hph2; cases hph2
  | workerFatal hph2 hmem hst hfil => rw [hph] at hph2; cases hph2
  | shutdownDone hph2 hmem hst =>
    left
    rw [doShutdownDone_phase, hph]
  | outputChanged hph2 hmem hst hout => rw [hph] at hph2; cases hph2
  | stopNode hph2 hmem hst => rw [hph] at hph2; cases hph2
  | uninstall hph2 hmem hst => rw [hph] at hph2; cases hph2
  | requestStop hph2 => rw [hph] at hph2; cases hph2
  | finishStop hph2 hlw =>
    right
    rw [doFinishStop_phase, hph]
  | tick =>
    left
    rw [doTick_phase, hph]

theorem fatal_inversion {g : Engine} {a : Act} {g' : Engine} {e : EngErr}
    (hstep : Step g a g') (hph : g.phase = .running)
    (hph' : g'.phase = .stoppingAll (some e)) :
    ∃ n nd, a = .workerFatal n e ∧ (n, nd) ∈ g.nodes ∧
      nd.state = .started ∧ nd.manifold.filter e = .fatal := by
  cases hstep with
  | install hph2 hok =>
    obtain ⟨_, rfl⟩ := install_ok_elim hok
    have hcontra : g.phase = .stoppingAll (some e) := hph'
    rw [hph] at hcontra
    cases hcontra
  | startOk hph2 hmem hst hall =>
    rw [doStart_phase, hph] at hph'
    cases hph'
  | startFail hph2 hmem hst hall =>
    rw [doStartFail_phase, hph] at hph'
    cases hph'
  | stopComplete hph2 hmem hst =>
    rw [doStopComplete_phase, hph] at hph'
    cases hph'
  | workerStopped hph2 hmem hst hfil =>
    rw [doStopComplete_phase, hph] at hph'
    cases hph'
  | workerErred hph2 hmem hst hfil =>
    rw [doDoneErr_phase, hph] at hph'
    cases hph'
  | workerFatal hph2 hmem hst hfil =>
    rw [doDoneFatal_phase] at hph'
    injection hph' with hph'
    injection hph' with hph'
    rename_i n0 nd0 e0
    exact ⟨n0, nd0, by rw [hph'], hmem, hst, by rw [← hph']; exact hfil⟩
  | shutdownDone hph2 hmem hst =>
    rw [hph] at hph2
    cases hph2
  | outputChanged hph2 hmem hst hout =>
    rename_i n0 nd0 v0
    exfalso
    rcases hc : nd0.outputCache with _ | old
    · rw [doOutputChange_none hc, hph] at hph'
      cases hph'
    · rw [doOutputChange_some hc] at hph'
      by_cases he : nd0.manifold.eqOut old v0 = true
      · rw [if_pos he, hph] at hph'
        cases hph'
      · rw [if_neg he] at hph'
        have hcontra : g.phase = .stoppingAll (some e) := hph'
        rw [hph] at hcontra
        cases hcontra
  | stopNode hph2 hmem hst =>
    rw [doStopNode_phase, hph] at hph'
    cases hph'
  | uninstall hph2 hmem hst =>
    rw [doUninstall_phase, hph] at hph'
    cases hph'
  | requestStop hph2 =>
    rw [doRequestStop_phase] at hph'
    injection hph' with hph'
    cases hph'
  | finishStop hph2 hlw =>
    rw [hph] at hph2
    cases hph2
  | tick =>
    rw [doTick_phase, hph] at hph'
    cases hph'

/-- Claim C4: a worker completion whose error the node's `filter`
classifies fatal moves the engine to stopping every node with that
error recorded; a recorded fatal error persists until the engine
terminates, so `Engine.Wait()` returns exactly it; a terminated
engine has no live workers and no started node; and, conversely, the
only event that moves a running engine into fatal shutdown is a
`filter`-classified fatal worker error — the only error class
surfaced to the engine's caller. -/
theorem c4_fatal_stops_engine {g : Engine} {a : Act} {g' : Engine}
    (hg : Reachable g) (hstep : Step g a g') :
    (∀ n e, a = .workerFatal n e → g'.phase = .stoppingAll (some e) ∧
      ∀ p ∈ g'.nodes, p.2.state ≠ .started) ∧
    (∀ e, g.phase = .stoppingAll (some e) →
      g'.phase = .stoppingAll (some e) ∨ g'.phase = .done (some e)) ∧
    (∀ r, g'.phase = .done r → g'.liveWorkers = [] ∧
      ∀ p ∈ g'.nodes, p.2.state ≠ .started) ∧
    (∀ e, g.phase = .running → g'.phase = .stoppingAll (some e) →
      ∃ n nd, a = .workerFatal n e ∧ (n, nd) ∈ g.nodes ∧
        nd.state = .started ∧ nd.manifold.filter e = .fatal) := by
  have hInv' : Inv g' := reachable_inv (Reachable.step hg hstep)
  refine ⟨?_, ?_, ?_, ?_⟩
  · intro n e heq
    subst heq
    exact fatal_step_elim hstep
  · intro e hph
    exact stoppingAll_persist hstep hph
  · intro r hr
    refine ⟨hInv'.doneDrained r hr, ?_⟩
    apply hInv'.phaseStarted
    rw [hr]
    intro hc
    cases hc
  · intro e hph hph'
    exact fatal_inversion hstep hph hph'

/-- Witness for C4 at a concrete run: the fatal completion of `"f"`'s
worker in `f2` drives the engine to `stoppingAll` recording exactly
that error, with no node left `started`. -/
theorem c4_witness :
    f3.phase = .stoppingAll (some (.other 7)) ∧
      ∀ p ∈ f3.nodes, p.2.state ≠ .started :=
  (c4_fatal_stops_engine f2_reachable f3_step).1 "f" (.other 7) rfl

/-- Claim C5, counterexample: installing manifold `mB`, whose declared
input `"a"` is not installed, into the empty engine succeeds — so
`Install` does *not* fail whenever a declared input references a name
not currently installed, refuting the claimed iff at this input. -/
theorem c5_counterexample :
    exceptOk (Engine.init.install mB) = true ∧
    mB.inputs = ["a"] ∧ Engine.init.installed "a" = false := by
  refine ⟨rfl, rfl, rfl⟩

/-- Claim C5, amended: `Install(manifold)` fails with a configuration
error if and only if the manifold's name is already installed; on a
failure the engine's graph is unchanged (no new engine state is
produced).  A declared input referencing a name not currently
installed is not an install-time error: the node is simply never
startable until the input is installed. -/
theorem c5_amended_install_contract (g : Engine) (m : Manifold) :
    (g.installed m.name = true → g.install m = .error (.other 0)) ∧
    (g.installed m.name = false →
      g.install m =
        .ok { g with nodes := g.nodes ++ [(m.name, m.newNode)] }) := by
  constructor
  · intro h
    unfold Engine.install
    rw [if_pos h]
  · intro h
    unfold Engine.install
    rw [if_neg (by rw [h]; intro hc; cases hc)]

/-- Witness for the amended C5: installing `mB` into the empty engine
succeeds and appends exactly its node, while re-installing `mA` into
`e1` (where `"a"` already exists) fails with the configuration
error. -/
theorem c5_witness :
    Engine.init.install mB =
      .ok { Engine.init with
              nodes := Engine.init.nodes ++ [(mB.name, mB.newNode)] } ∧
    e1.install mA = .error (.other 0) :=
  ⟨(c5_amended_install_contract Engine.init mB).2 rfl,
   (c5_amended_install_contract e1 mA).1 rfl⟩

/-! ### The bounce cascade triggered by an output change -/

theorem mem_stabilize_of_not_started {ms : List (String × Node)}
    {p : String × Node} (hp : p ∈ ms) (hns : p.2.state ≠ .started) :
    p ∈ stabilize ms := by
  unfold stabilize
  generalize ms.length = k
  induction k with
  | zero => simpa using hp
  | succ m ih =>
    rw [Function.iterate_succ_apply']
    have hid : demoteIfOrphan (prune^[m] ms) p = p := by
      rcases demoteIfOrphan_cases (prune^[m] ms) p with h | ⟨hs, _, _⟩
      · exact h
      · exact absurd hs hns
    rw [← hid]
    show demoteIfOrphan _ p ∈ prune (prune^[m] ms)
    unfold prune
    exact List.mem_map_of_mem _ ih

theorem all_false_exists {ns : List (String × Node)} {ins : List String}
    (h : allInputsStarted ns ins = false) :
    ∃ a ∈ ins, isStarted ns a = false := by
  by_contra hc
  push_neg at hc
  have htrue : allInputsStarted ns ins = true := by
    apply allInputsStarted_iff.mpr
    intro a ha
    cases hb : isStarted ns a
    · exact absurd hb (hc a ha)
    · rfl
  rw [h] at htrue
  cases htrue

theorem keys_stabilize_bounce (g : Engine) (n : String) (v : Value) :
    (stabilize (bounceNodes g n v)).map Prod.fst = g.nodes.map Prod.fst := by
  rw [keys_stabilize]
  unfold bounceNodes
  rw [keys_demoteDependentsOf, keys_setNode]

/-- During the pruning iterations that follow an output change of
`n`, the only entries that can differ from the original table are `n`
itself and the transitive dependents of `n`. -/
theorem outputChange_untouched {g : Engine} {n : String} {v : Value}
    (hInv : Inv g) :
    ∀ (k : Nat) (d : String) (nd0 nd1 : Node),
      (d, nd0) ∈ g.nodes → (d, nd1) ∈ prune^[k] (bounceNodes g n v) →
      nd1 ≠ nd0 → d = n ∨ Depends g.nodes n d := by
  intro k
  induction k with
  | zero =>
    intro d nd0 nd1 hmem0 hmem1 hne
    simp only [Function.iterate_zero, id] at hmem1
    unfold bounceNodes at hmem1
    rcases mem_demoteDependentsOf.mp hmem1 with ⟨p1, hp1, hcond⟩
    rcases mem_setNode.mp hp1 with ⟨q, hq, hcond2⟩
    by_cases hqn : q.1 = n
    · left
      rw [if_pos hqn] at hcond2
      have hd : d = p1.1 := by
        by_cases hc : (p1.2.state = NodeState.started &&
            decide (n ∈ p1.2.manifold.inputs) && decide (p1.1 ≠ n)) = true
        · rw [if_pos hc] at hcond
          exact congrArg Prod.fst hcond
        · rw [if_neg hc] at hcond
          exact congrArg Prod.fst hcond
      rw [hd, hcond2]
      exact hqn
    · rw [if_neg hqn] at hcond2
      by_cases hc : (p1.2.state = NodeState.started &&
          decide (n ∈ p1.2.manifold.inputs) && decide (p1.1 ≠ n)) = true
      · right
        rw [if_pos hc] at hcond
        have hd : d = q.1 := by
          have hh := congrArg Prod.fst hcond
          rw [hcond2] at hh
          exact hh
        have hqmem : (d, q.2) ∈ g.nodes := by
          have he : q = (d, q.2) := by
            rw [Prod.ext_iff]; exact ⟨hd.symm, rfl⟩
          rw [← he]; exact hq
        have hq2 : q.2 = nd0 := nodup_keys_unique hInv.keysNodup hqmem hmem0
        simp only [Bool.and_eq_true, decide_eq_true_eq] at hc
        have hnin : n ∈ nd0.manifold.inputs := by
          rw [← hq2, ← hcond2]
          exact hc.1.2
        exact Depends.direct hmem0 hnin
      · exfalso
        rw [if_neg hc] at hcond
        rw [hcond2] at hcond
        have hmem' : (d, nd1) ∈ g.nodes := by rw [hcond]; exact hq
        exact hne (nodup_keys_unique hInv.keysNodup hmem' hmem0)
  | succ m ih =>
    intro d nd0 nd1 hmem0 hmem1 hne
    rw [Function.iterate_succ_apply'] at hmem1
    rcases mem_prune.mp hmem1 with ⟨q', hq', heq⟩
    have hd : d = q'.1 := by
      have hh := congrArg Prod.fst heq
      rwa [demoteIfOrphan_fst] at hh
    rcases demoteIfOrphan_cases (prune^[m] (bounceNodes g n v)) q'
      with hcase | ⟨hqs, hall, hcase⟩
    · rw [hcase] at heq
      have hq'' : (d, nd1) ∈ prune^[m] (bounceNodes g n v) := by
        rw [heq]; exact hq'
      exact ih d nd0 nd1 hmem0 hq'' hne
    · by_cases hq2 : q'.2 = nd0
      · have hstart0 : nd0.state = .started := by
          rw [← hq2]; exact hqs
        have hall0 := hInv.inputsStarted (d, nd0) hmem0 hstart0
        have hallk : allInputsStarted (prune^[m] (bounceNodes g n v))
            nd0.manifold.inputs = false := by
          rw [← hq2]; exact hall
        rcases all_false_exists hallk with ⟨a, ha, hafalse⟩
        have hag : isStarted g.nodes a = true :=
          allInputsStarted_iff.mp hall0 a ha
        rcases isStarted_iff.mp hag with ⟨pa, hpa, hpakey, hpast⟩
        have hpamem : (a, pa.2) ∈ g.nodes := by
          have he : pa = (a, pa.2) := by
            rw [Prod.ext_iff]; exact ⟨hpakey, rfl⟩
          rw [← he]; exact hpa
        have hak : a ∈ (prune^[m] (bounceNodes g n v)).map Prod.fst := by
          rw [keys_iterate_prune]
          unfold bounceNodes
          rw [keys_demoteDependentsOf, keys_setNode]
          exact List.mem_map_of_mem Prod.fst hpamem
        rcases mem_keys_exists hak with ⟨x, hx⟩
        have hxne : x ≠ pa.2 := by
          intro hcontra
          have hstartedit : isStarted (prune^[m] (bounceNodes g n v)) a
              = true :=
            isStarted_iff.mpr ⟨(a, x), hx, rfl, by
              rw [hcontra]; exact hpast⟩
          rw [hafalse] at hstartedit
          cases hstartedit
        right
        rcases ih a pa.2 x hpamem hx hxne with hrec | hrec
        · exact Depends.direct hmem0 (by rw [← hrec]; exact ha)
        · exact Depends.trans hrec hmem0 ha
      · have hq'' : (d, q'.2) ∈ prune^[m] (bounceNodes g n v) := by
          have he : q' = (d, q'.2) := by
            rw [Prod.ext_iff]; exact ⟨hd.symm, rfl⟩
          rw [← he]; exact hq'
        exact ih d nd0 q'.2 hmem0 hq'' hq2

/-- A started direct dependent of `n` is sent the cancellation signal
by the bounce and survives stabilisation in state `stopping`. -/
theorem direct_bounced {g : Engine} {n : String} {v : Value} {d : String}
    {dd : Node} (hdd : (d, dd) ∈ g.nodes) (hst : dd.state = .started)
    (hin : n ∈ dd.manifold.inputs) (hdn : d ≠ n) :
    (d, { dd with state := .stopping }) ∈ stabilize (bounceNodes g n v) := by
  have h0 : (d, dd) ∈ setNode g.nodes n
      (fun m => { m with outputCache := some v }) :=
    mem_setNode.mpr ⟨(d, dd), hdd, by rw [if_neg hdn]⟩
  have hcmem : (d, { dd with state := .stopping }) ∈ bounceNodes g n v := by
    unfold bounceNodes
    apply mem_demoteDependentsOf.mpr
    refine ⟨(d, dd), h0, ?_⟩
    rw [if_pos (by simp [hst, hin, hdn])]
  exact mem_stabilize_of_not_started hcmem (by simp)

/-- The entry of a non-`n` node after the bounce cascade: same
manifold, state at most demoted from `started` to `stopping`. -/
theorem bounce_entry_trace {g : Engine} {n : String} {v : Value}
    {d : String} {y : Node} (hInv : Inv g)
    (hy : (d, y) ∈ stabilize (bounceNodes g n v)) (hdn : d ≠ n)
    {dd : Node} (hdd : (d, dd) ∈ g.nodes) :
    y.manifold = dd.manifold ∧
      (y.state = dd.state ∨ (y.state = .stopping ∧ dd.state = .started)) := by
  rcases mem_stabilize_demoted _ hy with ⟨pmid, hpmid, hdem⟩
  obtain ⟨hfst, hman, _, _, _, hstate⟩ := hdem
  unfold bounceNodes at hpmid
  rcases mem_demoteDependentsOf.mp hpmid with ⟨p1, hp1, hcond⟩
  rcases mem_setNode.mp hp1 with ⟨q, hq, hcond2⟩
  have hp1fst : p1.1 = q.1 := by
    by_cases hqn : q.1 = n
    · rw [hcond2, if_pos hqn]
    · rw [hcond2, if_neg hqn]
  have hpmidfst : pmid.1 = p1.1 := by
    by_cases hc : (p1.2.state = NodeState.started &&
        decide (n ∈ p1.2.manifold.inputs) && decide (p1.1 ≠ n)) = true
    · rw [hcond, if_pos hc]
    · rw [hcond, if_neg hc]
  have hqd : q.1 = d := by
    rw [← hp1fst, ← hpmidfst, ← hfst]
  have hqmem : (d, q.2) ∈ g.nodes := by
    have he : q = (d, q.2) := by
      rw [Prod.ext_iff]; exact ⟨hqd, rfl⟩
    rw [← he]; exact hq
  have hq2 : q.2 = dd := nodup_keys_unique hInv.keysNodup hqmem hdd
  have hqnn : q.1 ≠ n := by rw [hqd]; exact hdn
  rw [if_neg hqnn] at hcond2
  by_cases hc : (p1.2.state = NodeState.started &&
      decide (n ∈ p1.2.manifold.inputs) && decide (p1.1 ≠ n)) = true
  · rw [if_pos hc] at hcond
    simp only [Bool.and_eq_true, decide_eq_true_eq] at hc
    have hddst : dd.state = .started := by
      rw [← hq2, ← hcond2]
      exact hc.1.1
    have hman' : y.manifold = dd.manifold := by
      rw [hman, hcond]
      show p1.2.manifold = dd.manifold
      rw [hcond2, hq2]
    refine ⟨hman', Or.inr ⟨?_, hddst⟩⟩
    rcases hstate with hs | hs
    · rw [hs, hcond]
    · exact hs.1
  · rw [if_neg hc] at hcond
    have hman' : y.manifold = dd.manifold := by
      rw [hman, hcond, hcond2, hq2]
    refine ⟨hman', ?_⟩
    rcases hstate with hs | hs
    · left
      rw [hs, hcond, hcond2, hq2]
    · right
      refine ⟨hs.1, ?_⟩
      have hps := hs.2
      rw [hcond, hcond2, hq2] at hps
      exact hps

/-- Every started transitive dependent of the changed node ends the
bounce cascade in state `stopping`. -/
theorem depends_bounced {g : Engine} {v : Value} (hInv : Inv g) :
    ∀ (n d : String), Depends g.nodes n d → d ≠ n →
      ∀ dd, (d, dd) ∈ g.nodes → dd.state = .started →
        ∃ x, (d, x) ∈ stabilize (bounceNodes g n v) ∧
          x.state = .stopping := by
  intro n d hdep
  induction hdep with
  | @direct d0 ndX hmemX hinX =>
    intro hdn dd hdd hst
    have hX : ndX = dd := nodup_keys_unique hInv.keysNodup hmemX hdd
    refine ⟨{ dd with state := .stopping }, ?_, rfl⟩
    exact direct_bounced hdd hst (by rw [← hX]; exact hinX) hdn
  | @trans m0 d0 ndX hdepm hmemX hinX ihm =>
    intro hdn dd hdd hst
    have hX : ndX = dd := nodup_keys_unique hInv.keysNodup hmemX hdd
    have hallg := hInv.inputsStarted (d0, dd) hdd hst
    have hin' : m0 ∈ dd.manifold.inputs := by
      rw [← hX]; exact hinX
    have hmg : isStarted g.nodes m0 = true :=
      allInputsStarted_iff.mp hallg m0 hin'
    rcases isStarted_iff.mp hmg with ⟨pm, hpm, hpmk, hpms⟩
    have hpmmem : (m0, pm.2) ∈ g.nodes := by
      have he : pm = (m0, pm.2) := by
        rw [Prod.ext_iff]; exact ⟨hpmk, rfl⟩
      rw [← he]; exact hpm
    by_cases hmn : m0 = n
    · refine ⟨{ dd with state := .stopping }, ?_, rfl⟩
      exact direct_bounced hdd hst (by rw [← hmn]; exact hin') hdn
    · rcases ihm hmn pm.2 hpmmem hpms with ⟨xm, hxm, hxms⟩
      have hdk : d0 ∈ (stabilize (bounceNodes g n v)).map Prod.fst := by
        rw [keys_stabilize_bounce]
        exact List.mem_map_of_mem Prod.fst hdd
      rcases mem_keys_exists hdk with ⟨y, hy⟩
      rcases bounce_entry_trace hInv hy hdn hdd with ⟨hyman, hystate⟩
      rcases hystate with hys | hys
      · exfalso
        have hyst : y.state = .started := by rw [hys]; exact hst
        have hfix := prune_eq_self_iff.mp
          (stabilize_fixed (bounceNodes g n v)) (d0, y) hy hyst
        have hmIn : m0 ∈ (((d0, y) : String × Node)).2.manifold.inputs := by
          show m0 ∈ y.manifold.inputs
          rw [hyman]
          exact hin'
        have hmN' : isStarted (stabilize (bounceNodes g n v)) m0 = true :=
          allInputsStarted_iff.mp hfix m0 hmIn
        rcases isStarted_iff.mp hmN' with ⟨pz, hpz, hpzk, hpzs⟩
        have hN'nodup :
            ((stabilize (bounceNodes g n v)).map Prod.fst).Nodup := by
          rw [keys_stabilize_bounce]
          exact hInv.keysNodup
        have hpzmem : (m0, pz.2) ∈ stabilize (bounceNodes g n v) := by
          have he : pz = (m0, pz.2) := by
            rw [Prod.ext_iff]; exact ⟨hpzk, rfl⟩
          rw [← he]; exact hpz
        have hzx : pz.2 = xm := nodup_keys_unique hN'nodup hpzmem hxm
        rw [hzx, hxms] at hpzs
        cases hpzs
      · exact ⟨y, hy, hys.1⟩

/-- Claim C6: re-evaluating a started node's output with a value equal
to the previous one under the node's declared equality changes
nothing — no dependent is bounced; a changed value bounces every
started transitive dependent exactly once (each such node's single
table entry moves to `stopping`, from which the loop may restart it)
while every node that is not a transitive dependent keeps its entry
untouched; in both cases the set of installed names is unchanged. -/
theorem c6_bounce_on_output_change {g : Engine} (hg : Reachable g)
    {n : String} {nd : Node} {v old : Value}
    (hmem : (n, nd) ∈ g.nodes) (hst : nd.state = .started)
    (hold : nd.outputCache = some old) :
    (nd.manifold.eqOut old v = true → doOutputChange g n v nd = g) ∧
    (nd.manifold.eqOut old v = false →
      ∀ d dd, (d, dd) ∈ g.nodes → d ≠ n →
        (dd.state = .started → Depends g.nodes n d →
          ∃ x, (d, x) ∈ (doOutputChange g n v nd).nodes ∧
            x.state = .stopping) ∧
        (¬ Depends g.nodes n d →
          (d, dd) ∈ (doOutputChange g n v nd).nodes)) ∧
    ((doOutputChange g n v nd).nodes.map Prod.fst =
      g.nodes.map Prod.fst) := by
  have hInv := reachable_inv hg
  refine ⟨?_, ?_, ?_⟩
  · intro he
    rw [doOutputChange_some hold, if_pos he]
  · intro he
    have hres : (doOutputChange g n v nd).nodes =
        stabilize (bounceNodes g n v) := by
      rw [doOutputChange_some hold,
        if_neg (by rw [he]; intro hc; cases hc)]
      rfl
    intro d dd hdd hdn
    constructor
    · intro hds hdep
      rw [hres]
      exact depends_bounced hInv n d hdep hdn dd hdd hds
    · intro hndep
      rw [hres]
      have hdk : d ∈ (stabilize (bounceNodes g n v)).map Prod.fst := by
        rw [keys_stabilize_bounce]
        exact List.mem_map_of_mem Prod.fst hdd
      rcases mem_keys_exists hdk with ⟨x, hx⟩
      by_cases hxd : x = dd
      · rw [← hxd]; exact hx
      · exfalso
        rcases outputChange_untouched hInv (bounceNodes g n v).length
          d dd x hdd hx hxd with hcontra | hcontra
        · exact hdn hcontra
        · exact hndep hcontra
  · rcases hc : nd.outputCache with _ | old2
    · rw [doOutputChange_none hc]
    · rw [doOutputChange_some hc]
      by_cases he : nd.manifold.eqOut old2 v = true
      · rw [if_pos he]
      · rw [if_neg he]
        exact keys_stabilize_bounce g n v

theorem e4_nodes_eq : e4.nodes = [("a", ndA), ("b", ndB)] := rfl

theorem ndA_mem : ("a", ndA) ∈ e4.nodes := by
  rw [e4_nodes_eq]
  exact List.mem_cons_self _ _

theorem ndB_mem : ("b", ndB) ∈ e4.nodes := by
  rw [e4_nodes_eq]
  exact List.mem_cons_of_mem _ (List.mem_cons_self _ _)

/-- Witness for C6 at a concrete reachable engine: re-publishing
`"a"`'s output unchanged leaves `e4` untouched, while changing it
bounces the started dependent `"b"` into `stopping`. -/
theorem c6_witness :
    doOutputChange e4 "a" vA ndA = e4 ∧
    ∃ x, ("b", x) ∈ (doOutputChange e4 "a" ⟨1, 2⟩ ndA).nodes ∧
      x.state = .stopping :=
  ⟨(c6_bounce_on_output_change e4_reachable ndA_mem rfl rfl).1 (by decide),
   ((c6_bounce_on_output_change e4_reachable ndA_mem rfl rfl).2.1
      (by decide) "b" ndB ndB_mem (by decide)).1 rfl
      (Depends.direct ndB_mem (by decide))⟩

/-! ### Claims about the sampled source outside the engine -/

/-- Claim C7: the manifold returned by `ApiManifold` declares exactly
the one input `config.APICallerName`; when `context.Get` of that name
fails, `Start` returns that error without invoking the supplied start
function (the result is independent of it); and when `Get` succeeds,
`Start` returns exactly `start(apiCaller)`. -/
theorem c7_apiManifold_contract (config : ApiManifoldConfig)
    (start : Value → Except EngErr Nat) :
    (apiManifold config start).inputs = [config.apiCallerName] ∧
    (∀ (ctxGet : String → Except EngErr Value) (e : EngErr),
      ctxGet config.apiCallerName = .error e →
      (apiManifold config start).start ctxGet = .error e ∧
      ∀ start', (apiManifold config start').start ctxGet =
        (apiManifold config start).start ctxGet) ∧
    (∀ (ctxGet : String → Except EngErr Value) (v : Value),
      ctxGet config.apiCallerName = .ok v →
      (apiManifold config start).start ctxGet = start v) := by
  refine ⟨rfl, ?_, ?_⟩
  · intro ctxGet e he
    constructor
    · show apiManifoldStart config start ctxGet = .error e
      unfold apiManifoldStart
      rw [he]
    · intro start'
      show apiManifoldStart config start' ctxGet =
        apiManifoldStart config start ctxGet
      unfold apiManifoldStart
      rw [he]
  · intro ctxGet v hv
    show apiManifoldStart config start ctxGet = start v
    unfold apiManifoldStart
    rw [hv]

/-- Witness for C7 at concrete inputs: the declared input list, a
failing `Get` propagated unchanged, and a succeeding `Get` passed to
the start function. -/
theorem c7_witness :
    (apiManifold ⟨"api"⟩ (fun v => .ok v.data)).inputs = ["api"] ∧
    (apiManifold ⟨"api"⟩ (fun v => .ok v.data)).start
      (fun _ => .error .missing) = .error .missing ∧
    (apiManifold ⟨"api"⟩ (fun v => .ok v.data)).start
      (fun _ => .ok vA) = .ok 1 :=
  ⟨(c7_apiManifold_contract ⟨"api"⟩ (fun v => .ok v.data)).1,
   ((c7_apiManifold_contract ⟨"api"⟩ (fun v => .ok v.data)).2.1
     (fun _ => .error .missing) .missing rfl).1,
   ((c7_apiManifold_contract ⟨"api"⟩ (fun v => .ok v.data)).2.2
     (fun _ => .ok vA) vA rfl).trans rfl⟩

/-- Claim C8: `precheckShim.AgentVersion` returns `version.Zero` with a
non-nil error whenever reading the model config fails or the config
carries no agent version, and otherwise returns the config's agent
version with a nil error. -/
theorem c8_precheck_agent_version (st : PrecheckState) :
    (∀ e, st.modelConfig = .error e →
      precheckAgentVersion st = (versionZero, some e)) ∧
    (∀ cfg, st.modelConfig = .ok cfg → cfg.agentVersion = none →
      (precheckAgentVersion st).1 = versionZero ∧
      (precheckAgentVersion st).2.isSome = true) ∧
    (∀ cfg v, st.modelConfig = .ok cfg → cfg.agentVersion = some v →
      precheckAgentVersion st = (v, none)) := by
  refine ⟨?_, ?_, ?_⟩
  · intro e he
    unfold precheckAgentVersion
    rw [he]
  · intro cfg hcfg hv
    have hred : precheckAgentVersion st =
        (match cfg.agentVersion with
          | none => (versionZero, some (.other 100))
          | some v => (v, none)) := by
      unfold precheckAgentVersion
      rw [hcfg]
    rw [hred, hv]
    exact ⟨rfl, rfl⟩
  · intro cfg v hcfg hv
    have hred : precheckAgentVersion st =
        (match cfg.agentVersion with
          | none => (versionZero, some (.other 100))
          | some v => (v, none)) := by
      unfold precheckAgentVersion
      rw [hcfg]
    rw [hred, hv]

/-- Witness for C8 at concrete backends: a failing `ModelConfig`, a
config without an agent version, and a config with one. -/
theorem c8_witness :
    precheckAgentVersion ⟨.error (.other 3)⟩ = (versionZero, some (.other 3)) ∧
    ((precheckAgentVersion ⟨.ok ⟨none⟩⟩).1 = versionZero ∧
      (precheckAgentVersion ⟨.ok ⟨none⟩⟩).2.isSome = true) ∧
    precheckAgentVersion ⟨.ok ⟨some 42⟩⟩ = (42, none) :=
  ⟨(c8_precheck_agent_version ⟨.error (.other 3)⟩).1 (.other 3) rfl,
   (c8_precheck_agent_version ⟨.ok ⟨none⟩⟩).2.1 ⟨none⟩ rfl rfl,
   (c8_precheck_agent_version ⟨.ok ⟨some 42⟩⟩).2.2 ⟨some 42⟩ 42 rfl rfl⟩

/-- Claim C9: `Bootstrap(environ, cons)` returns a non-nil error without
invoking `environ.Bootstrap` whenever the config has an empty
admin-secret, empty authorized-keys, no CA certificate or no CA
private key; and `environ.Bootstrap(cons)` is invoked exactly when
all four config checks and storage verification pass, in which case
its result is returned. -/
theorem c9_bootstrap_guards (environ : Environ) (cons : Nat) :
    ((environ.config.adminSecret = "" ∨ environ.config.authorizedKeys = "" ∨
      environ.config.caCert = none ∨ environ.config.caPrivateKey = none) →
      (bootstrap environ cons).1.isSome = true ∧
      (bootstrap environ cons).2 = false) ∧
    ((bootstrap environ cons).2 = true ↔
      (environ.config.adminSecret ≠ "" ∧
        environ.config.authorizedKeys ≠ "" ∧
        environ.config.caCert.isSome = true ∧
        environ.config.caPrivateKey.isSome = true ∧
        environ.verifyStorage = none)) ∧
    ((bootstrap environ cons).2 = true →
      (bootstrap environ cons).1 = environ.bootstrapImpl cons) := by
  unfold bootstrap
  by_cases h1 : environ.config.adminSecret = ""
  · rw [if_pos h1]
    refine ⟨fun _ => ⟨rfl, rfl⟩, ?_, ?_⟩
    · constructor
      · intro hc; cases hc
      · rintro ⟨hc, _⟩; exact absurd h1 hc
    · intro hc; cases hc
  · rw [if_neg h1]
    by_cases h2 : environ.config.authorizedKeys = ""
    · rw [if_pos h2]
      refine ⟨fun _ => ⟨rfl, rfl⟩, ?_, ?_⟩
      · constructor
        · intro hc; cases hc
        · rintro ⟨_, hc, _⟩; exact absurd h2 hc
      · intro hc; cases hc
    · rw [if_neg h2]
      by_cases h3 : environ.config.caCert.isNone = true
      · rw [if_pos h3]
        refine ⟨fun _ => ⟨rfl, rfl⟩, ?_, ?_⟩
        · constructor
          · intro hc; cases hc
          · rintro ⟨_, _, hc, _⟩
            rw [Option.isNone_iff_eq_none] at h3
            rw [h3] at hc
            cases hc
        · intro hc; cases hc
      · rw [if_neg h3]
        by_cases h4 : environ.config.caPrivateKey.isNone = true
        · rw [if_pos h4]
          refine ⟨fun _ => ⟨rfl, rfl⟩, ?_, ?_⟩
          · constructor
            · intro hc; cases hc
            · rintro ⟨_, _, _, hc, _⟩
              rw [Option.isNone_iff_eq_none] at h4
              rw [h4] at hc
              cases hc
          · intro hc; cases hc
        · rw [if_neg h4]
          rcases hv : environ.verifyStorage with _ | err
          · refine ⟨?_, ?_, fun _ => rfl⟩
            · rintro (hc | hc | hc | hc)
              · exact absurd hc h1
              · exact absurd hc h2
              · exact absurd (by rw [hc]; rfl) h3
              · exact absurd (by rw [hc]; rfl) h4
            · constructor
              · intro _
                refine ⟨h1, h2, ?_, ?_, rfl⟩
                · rcases hcc : environ.config.caCert with _ | c
                  · exact absurd (by rw [hcc]; rfl) h3
                  · rfl
                · rcases hck : environ.config.caPrivateKey with _ | c
                  · exact absurd (by rw [hck]; rfl) h4
                  · rfl
              · intro _
                rfl
          · refine ⟨?_, ?_, ?_⟩
            · rintro (hc | hc | hc | hc)
              · exact absurd hc h1
              · exact absurd hc h2
              · exact absurd (by rw [hc]; rfl) h3
              · exact absurd (by rw [hc]; rfl) h4
            · constructor
              · intro hc; cases hc
              · rintro ⟨_, _, _, _, hc⟩
                cases hc
            · intro hc; cases hc

/-- Witness for C9 at concrete environs: a config with an empty
admin-secret is rejected before `environ.Bootstrap` runs, and a fully
valid config reaches `environ.Bootstrap`. -/
theorem c9_witness :
    ((bootstrap envBad 0).1.isSome = true ∧ (bootstrap envBad 0).2 = false) ∧
    (bootstrap envGood 0).2 = true ∧
    (bootstrap envGood 0).1 = envGood.bootstrapImpl 0 :=
  ⟨(c9_bootstrap_guards envBad 0).1 (Or.inl rfl),
   (c9_bootstrap_guards envGood 0).2.1.mpr
     ⟨by decide, by decide, rfl, rfl, rfl⟩,
   (c9_bootstrap_guards envGood 0).2.2 rfl⟩

/-- Claim C10: `formatFilesystemListTabular` returns a non-nil error if
and only if the dynamic type of the value is not
`map[string]FilesystemInfo`; when the type matches it performs the
tabular write (an `io.Writer` effect that cannot fail) and returns
nil. -/
theorem c10_format_filesystem_dispatch (value : GoValue) :
    (exceptOk (formatFilesystemListTabular value) = true ↔
      ∃ m, value = .fsMap m) ∧
    (∀ m, value = .fsMap m → formatFilesystemListTabular value = .ok ()) ∧
    (∀ t, value = .other t →
      ∃ msg, formatFilesystemListTabular value = .error msg) := by
  rcases value with m | t
  · refine ⟨⟨fun _ => ⟨m, rfl⟩, fun _ => rfl⟩, fun _ _ => rfl, ?_⟩
    intro t hc
    cases hc
  · refine ⟨⟨?_, ?_⟩, ?_, ?_⟩
    · intro hc
      cases hc
    · rintro ⟨m, hc⟩
      cases hc
    · intro m hc
      cases hc
    · intro t' ht
      injection ht with ht
      exact ⟨_, rfl⟩

/-- Witness for C10 at concrete values: the typed map is formatted
with a nil error, any other dynamic type yields an error. -/
theorem c10_witness :
    formatFilesystemListTabular (.fsMap [("0/0", ⟨5⟩)]) = .ok () ∧
    ∃ msg, formatFilesystemListTabular (.other "string") = .error msg :=
  ⟨(c10_format_filesystem_dispatch (.fsMap [("0/0", ⟨5⟩)])).2.1
     [("0/0", ⟨5⟩)] rfl,
   (c10_format_filesystem_dispatch (.other "string")).2.2 "string" rfl⟩

end Juju
